import Mathlib

/-!
# TripSync backend — verification of the RSVP/waitlist state machine and the
# expense-splitting / debt-settlement engine

Shallow embedding of `backend/routes/rsvp.py`, `backend/routes/trips.py`
(trip creation only), and `backend/routes/expenses.py` of the TripSync
repository, together with proofs about the spec's claims for those routes.

Modelling conventions, used throughout:

* SQL rows become Lean structures, and a trip's `TripMember` rows become a
  `List Member`.  The SQLAlchemy pattern "mutate the ORM row, then commit"
  is modelled by computing the row's final field values and writing the row
  back once (`replaceUser`): the net effect on the committed state is the
  same, because within one handler every mutation of the row is visible to
  the later statements of that handler and nothing else observes the row in
  between.
* `updated_at` / `responded_at` timestamps are modelled by a logical clock
  (`TripState.clock`).  `updated_at` has `onupdate=func.now()`
  (`models/trip.py`), so it is refreshed exactly when a flush emits an
  UPDATE, i.e. when a handler's write makes a net change to the row; a
  write that re-assigns the stored values leaves the stamp stale.  The
  clock is strictly increasing, and `ORDER BY updated_at` becomes sorting
  by the stamp.
* Monetary values (`Numeric` columns, JSON numbers) are modelled as exact
  rationals (`ℚ`).  The one place where Python's `decimal` arithmetic is
  *not* exact — the even-split division `Decimal(amount) / total_members`,
  which rounds to the context precision of 28 significant digits with
  ROUND_HALF_EVEN — is modelled faithfully by `div28`.
* `round(x, 2)` (Python's float rounding, half to even) is `roundTo2`.
* Handlers that can return an HTTP error become functions into
  `Except String _`; an error response means the transaction is never
  committed, hence the state is unchanged (the error value carries no state).
* Display-only columns that no claim mentions (titles, descriptions, dates,
  receipt URLs, created_at) are omitted from the record types.
-/

namespace TripSync

/-! ## Data model (`models/trip.py`)

`TripMember.rsvp_status ∈ {pending, going, maybe, no}` and
`TripMember.role ∈ {planner, guest, viewer}` (comments in `models/trip.py`).
`waitlist_position` is a nullable integer, `guest_limit` a nullable integer.
-/

inductive Rsvp where
  | pending | going | maybe | no
deriving DecidableEq

inductive Role where
  | planner | guest | viewer
deriving DecidableEq

structure Member where
  user : String
  role : Role
  rsvp : Rsvp
  wl : Option Int      -- waitlist_position
  upd : Nat            -- updated_at / responded_at, as a logical clock stamp
deriving DecidableEq

structure TripState where
  guestLimit : Option Int
  members : List Member
  clock : Nat          -- next fresh timestamp; strictly above every stamp
deriving DecidableEq

/-- Python truthiness of `trip.guest_limit`: `None` and `0` are falsy. -/
def limitTruthy : Option Int → Bool
  | none => false
  | some g => g != 0

def isGoing (m : Member) : Bool :=
  match m.rsvp with
  | .going => true
  | _ => false

/-- `rsvp_status == 'going' AND waitlist_position IS NULL` (a confirmed seat). -/
def isConfirmed (m : Member) : Bool := isGoing m && m.wl.isNone

/-- `COUNT(*) WHERE rsvp_status = 'going'`. -/
def goingCount (ms : List Member) : Nat := ms.countP isGoing

/-- `COUNT(*) WHERE rsvp_status = 'going' AND waitlist_position IS NULL`. -/
def confirmedCount (ms : List Member) : Nat := ms.countP isConfirmed

/-- `SELECT MAX(waitlist_position) ... or 0` (SQL MAX ignores NULLs). -/
def maxWl (ms : List Member) : Int := (ms.filterMap (·.wl)).foldl max 0

/-- `TripMember.query.filter_by(trip_id=.., user_id=u).first()`. -/
def findMember (ms : List Member) (u : String) : Option Member :=
  ms.find? (fun m => m.user == u)

/-- Write back the (unique) row of user `u`. -/
def replaceUser (ms : List Member) (u : String) (nm : Member) : List Member :=
  ms.map (fun x => if x.user == u then nm else x)

/-- `ORDER BY updated_at` (modelled as a stable sort on the clock stamp). -/
def updLe (a b : Member) : Prop := a.upd ≤ b.upd

instance : DecidableRel updLe := fun a b => inferInstanceAs (Decidable (a.upd ≤ b.upd))
instance : IsTotal Member updLe := ⟨fun a b => Nat.le_total a.upd b.upd⟩
instance : IsTrans Member updLe := ⟨fun _ _ _ h1 h2 => Nat.le_trans h1 h2⟩

def sortByUpd (ms : List Member) : List Member := List.insertionSort updLe ms

/-- `position = 0; for i, m in enumerate(going_members): if m.user_id == u:
position = i; break` — first index of `u`, defaulting to 0. -/
def posOf (u : String) (gs : List Member) : Nat :=
  match gs.findIdx? (fun m => m.user == u) with
  | some i => i
  | none => 0

/-- `ORDER BY waitlist_position` among `rsvp_status='going' AND
waitlist_position IS NOT NULL`. -/
def isWaitGoing (m : Member) : Bool := isGoing m && m.wl.isSome

def wlLe (a b : Member) : Prop := a.wl.getD 0 ≤ b.wl.getD 0

instance : DecidableRel wlLe := fun a b => inferInstanceAs (Decidable (a.wl.getD 0 ≤ b.wl.getD 0))
instance : IsTotal Member wlLe := ⟨fun a b => Int.le_total (a.wl.getD 0) (b.wl.getD 0)⟩
instance : IsTrans Member wlLe := ⟨fun _ _ _ h1 h2 => Int.le_trans h1 h2⟩

def sortByWl (ms : List Member) : List Member := List.insertionSort wlLe ms

/-- First person on the waitlist (`.order_by(waitlist_position).first()`). -/
def minWaitlisted (ms : List Member) : Option Member :=
  (sortByWl (ms.filter isWaitGoing)).head?

/-- The promotion sweep of `respond_to_invite` / `respond_to_invitation`
(`rsvp.py` lines 141–160 and 367–386): if the confirmed count is below the
limit, clear the waitlist position of the first person on the waitlist. -/
def promoteOne (g : Int) (ms : List Member) (tick : Nat) : List Member :=
  if (confirmedCount ms : Int) < g then
    match minWaitlisted ms with
    | some w => ms.map (fun x => if x.user == w.user then { x with wl := none, upd := tick } else x)
    | none => ms
  else ms

/-! ## `create_trip` (`trips.py` lines 36–106)

`guest_limit = data.get('guest_limit')` — stored with **no validation**
(any integer, including 0 and negatives, or null).  The creator is added as
`role='planner', rsvp_status='going'` with no waitlist position. -/

def init_trip (creator : String) (g : Option Int) : TripState :=
  { guestLimit := g
    members := [⟨creator, .planner, .going, none, 0⟩]
    clock := 1 }

/-! ## `join_trip` (`rsvp.py` lines 11–78, POST /join/<invite_token>) -/

def join_trip (s : TripState) (u : String) : Except String TripState :=
  if (findMember s.members u).isSome then
    .error "You are already a member of this trip"
  else
    -- `if trip.guest_limit:` then `if current_going >= trip.guest_limit:`
    match s.guestLimit with
    | some g =>
      if g ≠ 0 then
        if g ≤ (goingCount s.members : Int) then
          -- add to waitlist: role='guest', rsvp_status='pending',
          -- waitlist_position = max_position + 1
          .ok { s with
                members := s.members ++ [⟨u, .guest, .pending, some (maxWl s.members + 1), s.clock⟩],
                clock := s.clock + 2 }
        else
          .ok { s with
                members := s.members ++ [⟨u, .guest, .pending, none, s.clock⟩],
                clock := s.clock + 2 }
      else
        .ok { s with
              members := s.members ++ [⟨u, .guest, .pending, none, s.clock⟩],
              clock := s.clock + 2 }
    | none =>
      .ok { s with
            members := s.members ++ [⟨u, .guest, .pending, none, s.clock⟩],
            clock := s.clock + 2 }

/-! ## `respond_to_invite` (`rsvp.py` lines 80–165, POST /respond)

Accepts `response ∈ {going, maybe, no}`.  Sets `rsvp_status`, runs the
`updated_at`-ordering waitlist logic for `going`, clears the position for
non-`going`, and runs the promotion sweep only for `response == 'no'`.
It never touches `role`.

`updated_at` is refreshed only when the flush emits an UPDATE, i.e. only
when some column value actually changes.  Re-sending the stored
`rsvp_status` therefore leaves `updated_at` stale for the
`ORDER BY updated_at` query below, which is modelled by stamping the row
with a fresh tick only on a net change. -/

def respond_to_invite (s : TripState) (u : String) (resp : Rsvp) : Except String TripState :=
  if resp = .pending then
    .error "Invalid response. Must be going, maybe, or no"
  else
    match findMember s.members u with
    | none => .error "You are not invited to this trip"
    | some m =>
      -- `member.rsvp_status = response`, flushed before the queries below:
      -- the flush emits an UPDATE (stamping updated_at) only if the status
      -- actually changed
      let m1 : Member :=
        { m with
          rsvp := resp,
          upd := if resp = m.rsvp then m.upd else s.clock }
      let ms1 := replaceUser s.members u m1
      let ms2 :=
        if resp = .going ∧ limitTruthy s.guestLimit then
          let g := s.guestLimit.getD 0
          let currentGoing := goingCount ms1
          if g < (currentGoing : Int) then
            let gs := sortByUpd (ms1.filter isGoing)
            let position := posOf u gs
            let w : Option Int :=
              if g ≤ (position : Int) then some ((position : Int) - g + 1) else none
            -- the final commit stamps updated_at iff the status or the
            -- waitlist position changed
            replaceUser ms1 u
              { m1 with
                wl := w,
                upd := if resp = m.rsvp ∧ w = m.wl then m.upd else s.clock }
          else ms1
        else if resp ≠ .going then
          replaceUser ms1 u
            { m1 with
              wl := none,
              upd := if resp = m.rsvp ∧ m.wl = none then m.upd else s.clock }
        else ms1
      let msFin :=
        if resp = .no ∧ limitTruthy s.guestLimit then
          promoteOne (s.guestLimit.getD 0) ms2 (s.clock + 1)
        else ms2
      .ok { s with members := msFin, clock := s.clock + 2 }

/-! ## `update_rsvp` (`rsvp.py` lines 218–292, POST /<trip_id>/update)

Accepts `status ∈ {going, maybe, not_going, pending}` (`not_going` is mapped
to the stored value `no`).  Waitlist logic counts the going members
**excluding** the updated row; the role is then set **unconditionally** from
the status (`going → guest`, `maybe/not_going → viewer`; `pending` leaves the
role alone).  There is **no promotion sweep** in this route. -/

inductive UStatus where
  | going | maybe | not_going | pending
deriving DecidableEq

def UStatus.toRsvp : UStatus → Rsvp
  | .going => .going
  | .maybe => .maybe
  | .not_going => .no        -- "Map frontend not_going to backend no"
  | .pending => .pending

/-- `COUNT(*) WHERE rsvp_status='going' AND id != member.id`. -/
def occupiedExcl (ms : List Member) (u : String) : Nat :=
  goingCount (ms.filter (fun x => !(x.user == u)))

def update_rsvp (s : TripState) (u : String) (st : UStatus) : Except String TripState :=
  match findMember s.members u with
  | none => .error "You are not a member of this trip"
  | some m =>
    let wl' : Option Int :=
      if st = .going ∧ limitTruthy s.guestLimit then
        let g := s.guestLimit.getD 0
        if g < (occupiedExcl s.members u : Int) + 1 then some (maxWl s.members + 1)
        else none
      else if st ≠ .going then none
      else m.wl
    let role' : Role :=
      match st with
      | .going => .guest
      | .maybe => .viewer
      | .not_going => .viewer
      | .pending => m.role
    .ok { s with
          members := replaceUser s.members u
            { m with rsvp := st.toRsvp, wl := wl', role := role', upd := s.clock },
          clock := s.clock + 2 }

/-! ## `respond_to_invitation` (`rsvp.py` lines 294–392, POST /<trip_id>)

Accepts `status ∈ {going, maybe, not_going}`.  Creates a pending
`role='viewer'` membership if none exists, then sets status and —
**unconditionally** — the role; waitlist logic as in `update_rsvp`;
promotion sweep only for `status == 'not_going'`. -/

inductive IStatus where
  | going | maybe | not_going
deriving DecidableEq

def IStatus.toRsvp : IStatus → Rsvp
  | .going => .going
  | .maybe => .maybe
  | .not_going => .no

/-- The members list and addressed row after the create-if-missing step. -/
def invitationBase (s : TripState) (u : String) : Member × List Member :=
  match findMember s.members u with
  | some m => (m, s.members)
  | none =>
    let nm : Member := ⟨u, .viewer, .pending, none, s.clock⟩
    (nm, s.members ++ [nm])

/-- Members after everything except the promotion sweep. -/
def invitationCore (s : TripState) (u : String) (st : IStatus) : List Member :=
  let mb := invitationBase s u
  let m := mb.1
  let msBase := mb.2
  let wl' : Option Int :=
    if st = .going then
      if limitTruthy s.guestLimit then
        let g := s.guestLimit.getD 0
        if g < (occupiedExcl msBase u : Int) + 1 then some (maxWl msBase + 1)
        else none
      else m.wl
    else none
  let role' : Role := if st = .going then .guest else .viewer
  replaceUser msBase u { m with rsvp := st.toRsvp, wl := wl', role := role', upd := s.clock }

def respond_to_invitation (s : TripState) (u : String) (st : IStatus) : Except String TripState :=
  let ms2 := invitationCore s u st
  let msFin :=
    if st = .not_going ∧ limitTruthy s.guestLimit then
      promoteOne (s.guestLimit.getD 0) ms2 (s.clock + 1)
    else ms2
  .ok { s with members := msFin, clock := s.clock + 2 }

/-! ## Reachable trip states

States produced from trip creation by any sequence of the `rsvp.py`
operations (the "join and RSVP-update operations" of the spec).  Handlers
returning an error leave the state unchanged, so only `.ok` steps appear. -/

inductive Reachable : TripState → Prop where
  | init (creator : String) (g : Option Int) : Reachable (init_trip creator g)
  | join {s s' : TripState} (u : String) :
      Reachable s → join_trip s u = .ok s' → Reachable s'
  | respond {s s' : TripState} (u : String) (resp : Rsvp) :
      Reachable s → respond_to_invite s u resp = .ok s' → Reachable s'
  | update {s s' : TripState} (u : String) (st : UStatus) :
      Reachable s → update_rsvp s u st = .ok s' → Reachable s'
  | invitation {s s' : TripState} (u : String) (st : IStatus) :
      Reachable s → respond_to_invitation s u st = .ok s' → Reachable s'

end TripSync

namespace TripSync

/-! ## Decimal and rounding arithmetic

`share_amount = Decimal(data['amount']) / total_members` divides under
Python's default decimal context: the exact quotient is rounded to 28
significant digits with ROUND_HALF_EVEN.  `round(amount, 2)` in the summary
endpoint rounds half to even at 2 decimal places. -/

/-- `10^e` over ℚ, for an integer exponent. -/
def pow10 (e : Int) : ℚ :=
  match e with
  | .ofNat n => ((10 ^ n : ℕ) : ℚ)
  | .negSucc n => 1 / ((10 ^ (n + 1) : ℕ) : ℚ)

/-- Round to the nearest integer, ties to even (the rounding mode of both
Python's builtin `round` and the default decimal context). -/
def roundHalfEven (q : ℚ) : Int :=
  if q - (⌊q⌋ : ℚ) < 1 / 2 then ⌊q⌋
  else if 1 / 2 < q - (⌊q⌋ : ℚ) then ⌊q⌋ + 1
  else if ⌊q⌋ % 2 = 0 then ⌊q⌋ else ⌊q⌋ + 1

/-- `round(x, 2)`. -/
def roundTo2 (q : ℚ) : ℚ := (roundHalfEven (q * 100) : ℚ) / 100

/-- Number of decimal digits of a natural number (fuel-based so that the
kernel can evaluate it; the fuel `n` dominates the recursion depth). -/
def digitLenAux : ℕ → ℕ → ℕ
  | 0, _ => 0
  | fuel + 1, n => if n < 10 then 1 else 1 + digitLenAux fuel (n / 10)

def digitLen (n : ℕ) : ℕ := digitLenAux n n

/-- `⌊log10 q⌋` for `q > 0` (the decimal "adjusted exponent"), computed from
the digit lengths of numerator and denominator. -/
def adjExp (q : ℚ) : Int :=
  let d : Int := (digitLen q.num.natAbs : Int) - (digitLen q.den : Int)
  if pow10 d ≤ q then d else d - 1

/-- Round a positive rational to 28 significant decimal digits, half to even. -/
def sig28 (q : ℚ) : ℚ :=
  let s := pow10 (27 - adjExp q)
  (roundHalfEven (q * s) : ℚ) / s

/-- `Decimal(a) / n` under the default decimal context (precision 28,
ROUND_HALF_EVEN).  The result is the exact quotient correctly rounded to 28
significant digits, which is the exact quotient itself whenever that has a
finite 28-digit representation. -/
def div28 (a : ℚ) (n : ℕ) : ℚ :=
  let q := a / (n : ℚ)
  if q = 0 then 0
  else if 0 < q then sig28 q
  else -sig28 (-q)

/-! ## Binary64 arithmetic of the share-sum validation

`create_expense` and `update_expense` validate an explicit split with a
**Python float** comparison: `total_share = sum(p.get('share', 0) for p in
participants)` and `if total_share != float(data['amount'])`
(`expenses.py` lines 83–85; analogously at lines 156–160).  JSON numbers
arrive as IEEE-754 binary64 values and `sum` is binary64 addition, so
decimal-equal inputs such as shares 0.10 + 0.20 against amount 0.30 compare
unequal.  The following model binary64 rounding exactly — round to nearest,
ties to even, 53-bit significands; money-sized values are far from overflow
and subnormals, so neither needs modelling. -/

/-- `2^e` over ℚ, for an integer exponent. -/
def pow2 (e : Int) : ℚ :=
  if 0 ≤ e then ((2 ^ e.toNat : ℕ) : ℚ) else 1 / ((2 ^ (-e).toNat : ℕ) : ℚ)

/-- Number of binary digits of a natural number (fuel-based so that the
kernel can evaluate it). -/
def bitLenAux : ℕ → ℕ → ℕ
  | 0, _ => 0
  | fuel + 1, n => if n < 2 then 1 else 1 + bitLenAux fuel (n / 2)

def bitLen (n : ℕ) : ℕ := bitLenAux n n

/-- `⌊log2 q⌋` for `q > 0`, from the bit lengths of numerator and
denominator. -/
def adjExp2 (q : ℚ) : Int :=
  let d : Int := (bitLen q.num.natAbs : Int) - (bitLen q.den : Int)
  if pow2 d ≤ q then d else d - 1

/-- Round a positive rational to a 53-bit significand, ties to even. -/
def sig53 (q : ℚ) : ℚ :=
  let s := pow2 (52 - adjExp2 q)
  (roundHalfEven (q * s) : ℚ) / s

/-- The binary64 value nearest `q` (for the magnitudes of money values). -/
def fl64 (q : ℚ) : ℚ :=
  if q = 0 then 0
  else if 0 < q then sig53 q
  else -sig53 (-q)

/-- Python `sum` over binary64 share values: a left fold in which every
partial sum is again rounded to binary64. -/
def floatSum (xs : List ℚ) : ℚ := xs.foldl (fun a b => fl64 (a + fl64 b)) 0

/-! ## Data model (`models/expense.py`)

`Expense.amount` and `ExpenseParticipant.share_amount` are `Numeric`
columns; `ExpenseParticipant.paid` is a boolean.  Expense ids are modelled
as numbers handed out by a counter (the source uses UUID strings; only
freshness matters). -/

structure Participant where
  user : String
  share : ℚ
  paid : Bool
deriving DecidableEq

structure Expense where
  id : ℕ
  creator : String
  amount : ℚ
  currency : String
  participants : List Participant
deriving DecidableEq

def shareSum (e : Expense) : ℚ := (e.participants.map (·.share)).sum

structure EState where
  expenses : List Expense
  nextId : ℕ
deriving DecidableEq

/-- A participant entry of the request body: `{user_id, share, paid?}`
(`paid` defaults to false at the JSON level, so it is a plain Bool here). -/
structure PIn where
  user : String
  share : ℚ
  paid : Bool
deriving DecidableEq

def PIn.toParticipant (p : PIn) : Participant := ⟨p.user, p.share, p.paid⟩

def pinSum (ps : List PIn) : ℚ := (ps.map (·.share)).sum

/-! ## `create_expense` (`expenses.py` lines 22–102)

`going` is the user-id list of the trip's members with
`rsvp_status == 'going'` (the query at lines 64–67); `payer` is
`request.user_id`.  `data.get('participants', [])` followed by
`if not participants:` means both an absent and an empty list select the
even split.  The required-field and date checks concern fields that are
structurally present here.  An error response returns before `commit`, so
the session is rolled back and nothing is persisted. -/

def create_expense (going : List String) (payer : String) (st : EState)
    (amount : ℚ) (currency : String) (parts : List PIn) :
    Except String (EState × Expense) :=
  if parts.isEmpty then
    -- split evenly among all trip members who are 'going';
    -- the creator's row is marked paid
    let n := going.length
    let ps : List Participant :=
      if 0 < n then going.map (fun uid => ⟨uid, div28 amount n, uid == payer⟩)
      else []
    let e : Expense := ⟨st.nextId, payer, amount, currency, ps⟩
    .ok ({ expenses := st.expenses ++ [e], nextId := st.nextId + 1 }, e)
  else
    -- `if total_share != float(data['amount'])` — idealised here to the
    -- spec's exact decimal domain; the source's binary64 comparison is
    -- modelled exactly by `create_expense_src` below, and claim C7 records
    -- where the two differ (a code bug)
    if pinSum parts ≠ amount then
      .error "Sum of participant shares must equal the total amount"
    else
      let e : Expense := ⟨st.nextId, payer, amount, currency, parts.map PIn.toParticipant⟩
      .ok ({ expenses := st.expenses ++ [e], nextId := st.nextId + 1 }, e)

/-- `create_expense` with the share-sum check exactly as the source computes
it: participant shares and the amount are binary64 values, `total_share`
is their binary64 sum, and the handler rejects when `total_share !=
float(data['amount'])`.  Identical to `create_expense` in every other
respect. -/
def create_expense_src (going : List String) (payer : String) (st : EState)
    (amount : ℚ) (currency : String) (parts : List PIn) :
    Except String (EState × Expense) :=
  if parts.isEmpty then
    let n := going.length
    let ps : List Participant :=
      if 0 < n then going.map (fun uid => ⟨uid, div28 amount n, uid == payer⟩)
      else []
    let e : Expense := ⟨st.nextId, payer, amount, currency, ps⟩
    .ok ({ expenses := st.expenses ++ [e], nextId := st.nextId + 1 }, e)
  else
    -- `total_share = sum(p.get('share', 0) for p in participants)`
    -- `if total_share != float(data['amount']):`
    if floatSum (parts.map (fun p => p.share)) ≠ fl64 amount then
      .error "Sum of participant shares must equal the total amount"
    else
      let e : Expense := ⟨st.nextId, payer, amount, currency, parts.map PIn.toParticipant⟩
      .ok ({ expenses := st.expenses ++ [e], nextId := st.nextId + 1 }, e)

/-! ## `update_expense` (`expenses.py` lines 116–186)

Only the fields a claim mentions are modelled: `amount` and `participants`
(title/description/category/currency/date/receipt are display-only partial
updates).  Supplying `amount` without `participants` is rejected; supplying
`participants` replaces the whole split after the sum check against the
(possibly just-updated) amount.  Errors return before `commit`: rollback. -/

structure EPatch where
  amount : Option ℚ
  parts : Option (List PIn)

def update_expense (st : EState) (eid : ℕ) (patch : EPatch) : Except String EState :=
  match st.expenses.find? (fun e => e.id == eid) with
  | none => .error "Expense not found"
  | some e0 =>
    if patch.amount.isSome ∧ patch.parts.isNone then
      .error "Participants must be provided when updating amount"
    else
      match patch.parts with
      | none => .ok st     -- scalar-only update; no modelled field changes
      | some ps =>
        -- the check runs against the (possibly just-updated) amount; as in
        -- `create_expense` the source compares binary64 sums (see claim C7)
        -- and the comparison is idealised here to exact decimals
        if pinSum ps ≠ patch.amount.getD e0.amount then
          .error "Sum of participant shares must equal the total amount"
        else
          .ok { st with expenses := st.expenses.map (fun x =>
                  if x.id == eid then
                    { x with amount := patch.amount.getD e0.amount,
                             participants := ps.map PIn.toParticipant }
                  else x) }

/-! ## `delete_expense` (`expenses.py` lines 188–206): cascade delete. -/

def delete_expense (st : EState) (eid : ℕ) : Except String EState :=
  match st.expenses.find? (fun e => e.id == eid) with
  | none => .error "Expense not found"
  | some _ => .ok { st with expenses := st.expenses.eraseP (fun e => e.id == eid) }

/-! ## `mark_participant_paid` (`expenses.py` lines 315–344). -/

def mark_participant_paid (st : EState) (eid : ℕ) (uid : String) : Except String EState :=
  match st.expenses.find? (fun e => e.id == eid) with
  | none => .error "Expense not found"
  | some e0 =>
    if (e0.participants.find? (fun p => p.user == uid)).isNone then
      .error "Participant not found"
    else
      .ok { st with expenses := st.expenses.map (fun x =>
              if x.id == eid then
                { x with participants := x.participants.map (fun p =>
                    if p.user == uid then { p with paid := true } else p) }
              else x) }

/-! ## Reachable expense states

States produced from an empty expense table by the public expense
operations, against a fixed membership (`going` is the going-member user-id
list used by the even split; the RSVP machine is a distinct table not
touched by these routes).  Error responses leave the state unchanged, so
only `.ok` steps appear. -/

inductive EReachable (going : List String) : EState → Prop where
  | init : EReachable going ⟨[], 0⟩
  | create {st st' : EState} {e : Expense} (payer : String) (amount : ℚ)
      (currency : String) (parts : List PIn) :
      EReachable going st →
      create_expense going payer st amount currency parts = .ok (st', e) →
      EReachable going st'
  | update {st st' : EState} (eid : ℕ) (patch : EPatch) :
      EReachable going st → update_expense st eid patch = .ok st' →
      EReachable going st'
  | delete {st st' : EState} (eid : ℕ) :
      EReachable going st → delete_expense st eid = .ok st' →
      EReachable going st'
  | mark {st st' : EState} (eid : ℕ) (uid : String) :
      EReachable going st → mark_participant_paid st eid uid = .ok st' →
      EReachable going st'

end TripSync

namespace TripSync

/-! ## `get_expense_summary` (`expenses.py` lines 208–285)

The handler builds `user_balances` (one dict per trip member, keyed by
user id, in member order), adds `paid` for each expense whose creator is a
member and `owed` for each participant row whose user is a member, sets
`net = paid - owed`, and then runs the greedy settlement loop.

The Python `creditors` and `debtors` lists hold **references** to the same
dicts as `user_balances`; the loop decrements `creditor['net']` in place
(`debt_remaining` is a plain local, so debtor dicts are never written).
The model therefore threads the creditor list through the loop and, for the
response's `users` list, replaces each creditor's `net` by its final value.

`round(amount, 2)` is applied to each settlement as it is recorded; since
the running quantities (`debt_remaining`, `creditor['net']`) use the
unrounded `amount`, the recording is factored as a final `map roundTo2`
over the settlements with exact amounts. -/

structure UserBal where
  user : String
  paid : ℚ
  owed : ℚ
  net : ℚ
deriving DecidableEq

structure Settlement where
  fromUser : String
  toUser : String
  amount : ℚ
deriving DecidableEq

/-- The `user_balances` entry of one member (lines 222–246). -/
def balanceFor (expenses : List Expense) (u : String) : UserBal :=
  let paid := ((expenses.filter (fun e => e.creator == u)).map (·.amount)).sum
  let owed := (expenses.map (fun e =>
    ((e.participants.filter (fun p => p.user == u)).map (·.share)).sum)).sum
  ⟨u, paid, owed, paid - owed⟩

def balances (members : List String) (expenses : List Expense) : List UserBal :=
  members.map (balanceFor expenses)

/-- `creditors.sort(key=net, reverse=True)`. -/
def netGe (a b : UserBal) : Prop := b.net ≤ a.net

instance : DecidableRel netGe := fun a b => inferInstanceAs (Decidable (b.net ≤ a.net))
instance : IsTotal UserBal netGe := ⟨fun a b => le_total b.net a.net⟩
instance : IsTrans UserBal netGe := ⟨fun _ _ _ h1 h2 => le_trans h2 h1⟩

/-- `debtors.sort(key=net)`. -/
def netLe (a b : UserBal) : Prop := a.net ≤ b.net

instance : DecidableRel netLe := fun a b => inferInstanceAs (Decidable (a.net ≤ b.net))
instance : IsTotal UserBal netLe := ⟨fun a b => le_total a.net b.net⟩
instance : IsTrans UserBal netLe := ⟨fun _ _ _ h1 h2 => le_trans h1 h2⟩

/-- The inner loop of the settlement generation (lines 261–277), for one
debtor with user `dUser` and remaining debt `d`: walk the creditor list,
skip exhausted creditors, transfer `min(debt_remaining, creditor.net)`
when positive, and break once the debt is cleared (leaving the remaining
creditors untouched).  Returns the recorded settlements (with exact,
unrounded amounts) and the updated creditor list. -/
def walk (dUser : String) (d : ℚ) : List UserBal → List Settlement × List UserBal
  | [] => ([], [])
  | c :: cs =>
    if c.net ≤ 0 then
      -- `continue`
      ((walk dUser d cs).1, c :: (walk dUser d cs).2)
    else
      -- `amount = min(debt_remaining, creditor['net'])` is written out as
      -- `min d c.net` at each use
      if 0 < min d c.net then
        if d - min d c.net ≤ 0 then
          -- `break`: the remaining creditors are left untouched
          ([⟨dUser, c.user, min d c.net⟩], { c with net := c.net - min d c.net } :: cs)
        else
          (⟨dUser, c.user, min d c.net⟩ :: (walk dUser (d - min d c.net) cs).1,
           { c with net := c.net - min d c.net } :: (walk dUser (d - min d c.net) cs).2)
      else
        -- `amount > 0` fails: nothing recorded, loop continues
        ((walk dUser d cs).1, c :: (walk dUser d cs).2)

/-- The outer loop over debtors (lines 258–277). -/
def settleDebtors : List UserBal → List UserBal → List Settlement × List UserBal
  | [], cs => ([], cs)
  | dr :: drs, cs =>
    ((walk dr.user (-dr.net) cs).1 ++ (settleDebtors drs (walk dr.user (-dr.net) cs).2).1,
     (settleDebtors drs (walk dr.user (-dr.net) cs).2).2)

/-- `'amount': round(amount, 2)` applied to a recorded settlement. -/
def roundSettle (t : Settlement) : Settlement := { t with amount := roundTo2 t.amount }

structure Summary where
  total_expenses : ℚ
  users : List UserBal
  settlements : List Settlement
  expense_count : ℕ
  currency : String
deriving DecidableEq

def get_expense_summary (members : List String) (expenses : List Expense) : Summary :=
  let bs := balances members expenses
  let creditors := List.insertionSort netGe (bs.filter (fun b => 0 < b.net))
  let debtors := List.insertionSort netLe (bs.filter (fun b => b.net < 0))
  let r := settleDebtors debtors creditors
  { total_expenses := (expenses.map (·.amount)).sum
    users := bs.map (fun b =>
      match r.2.find? (fun c => c.user == b.user) with
      | some c => { b with net := c.net }    -- the aliased dict was mutated
      | none => b)
    settlements := r.1.map roundSettle
    expense_count := expenses.length
    currency := match expenses with | [] => "USD" | e :: _ => e.currency }

/-- Total net of a creditor list. -/
def netTotal (cs : List UserBal) : ℚ := (cs.map (·.net)).sum

/-- Total amount of a settlement list. -/
def amtTotal (ss : List Settlement) : ℚ := (ss.map (·.amount)).sum

/-- Net held by user `u` within a balance list. -/
def netSumOf (u : String) (cs : List UserBal) : ℚ :=
  ((cs.filter (fun c => c.user == u)).map (·.net)).sum

/-- Debt (`-net`) owed by user `u` within a debtor list. -/
def debtOfUser (u : String) (drs : List UserBal) : ℚ :=
  ((drs.filter (fun c => c.user == u)).map (fun c => -c.net)).sum

/-- Total debt of a debtor list. -/
def debtTotal (drs : List UserBal) : ℚ := (drs.map (fun c => -c.net)).sum

/-- Sum of recorded settlement amounts paid out by `u`. -/
def sentBy (u : String) (ss : List Settlement) : ℚ :=
  ((ss.filter (fun t => t.fromUser == u)).map (·.amount)).sum

/-- Sum of recorded settlement amounts received by `u`. -/
def recvBy (u : String) (ss : List Settlement) : ℚ :=
  ((ss.filter (fun t => t.toUser == u)).map (·.amount)).sum

/-- Number of settlements naming `u` on either side. -/
def involvedCount (u : String) (ss : List Settlement) : ℕ :=
  (ss.filter (fun t => t.fromUser == u)).length + (ss.filter (fun t => t.toUser == u)).length

end TripSync

namespace TripSync

/-! ## Derived notions used by theorem statements -/

/-- Role/user content is preserved row-by-row. -/
def rolePreserved (ms ns : List Member) : Prop :=
  ∀ x ∈ ns, ∃ y ∈ ms, y.user = x.user ∧ y.role = x.role

/-- The row written back by `update_rsvp` for a `going` request on a trip
with a truthy guest limit `g` (`rsvp.py` lines 247–284): status `going`,
role `guest`, waitlisted iff `occupied + 1 > g`. -/
def goingWriteBack (s : TripState) (u : String) (m : Member) (g : Int) : Member :=
  { m with
    rsvp := .going
    role := .guest
    upd := s.clock
    wl := if g < (occupiedExcl s.members u : Int) + 1 then some (maxWl s.members + 1) else none }

/-- The per-expense property that actually holds in every reachable state:
either the shares sum exactly to the amount (all writes with an explicit
participants list), or the expense came from the even-split path and its
share list is `n` copies of the 28-digit decimal quotient `amount / n`
(`n` = the going-member count at creation; `n = 0` leaves no rows). -/
def splitInvariant (e : Expense) : Prop :=
  shareSum e = e.amount ∨
  e.participants.map (·.share) =
    List.replicate e.participants.length (div28 e.amount e.participants.length)

/-- The expense persisted by the even split of 100.00 among 3 going members. -/
def expense100by3 : Expense :=
  ⟨0, "u1", 100, "USD",
   [⟨"u1", div28 100 3, true⟩, ⟨"u2", div28 100 3, false⟩, ⟨"u3", div28 100 3, false⟩]⟩

/-- The expense persisted by the even split of 100.00 among 2 going members
(Scenario C). -/
def expense100by2 : Expense :=
  ⟨0, "u1", 100, "USD", [⟨"u1", div28 100 2, true⟩, ⟨"u2", div28 100 2, false⟩]⟩

/-- Balance rows of the summary example used for the response-mutation bug:
two members, one 10.00 expense by `a` borne entirely by `b`. -/
def c8balA : UserBal := ⟨"a", 10, 0, 10⟩

def c8balB : UserBal := ⟨"b", 0, 10, -10⟩

/-- Scenario D's two expenses: u1 paid 100 split 50/50, u2 paid 40 split
20/20. -/
def scenarioD1 : Expense := ⟨0, "u1", 100, "USD", [⟨"u1", 50, true⟩, ⟨"u2", 50, false⟩]⟩

def scenarioD2 : Expense := ⟨1, "u2", 40, "USD", [⟨"u1", 20, false⟩, ⟨"u2", 20, true⟩]⟩

/-! ## Helper lemmas about member lookup and write-back -/

theorem findMember_mem {ms : List Member} {u : String} {m : Member}
    (h : findMember ms u = some m) : m ∈ ms ∧ m.user = u := by
  refine ⟨List.mem_of_find?_eq_some h, ?_⟩
  have := List.find?_some h
  exact eq_of_beq this

theorem findMember_replaceUser {ms : List Member} {u : String} {m nm : Member}
    (hm : findMember ms u = some m) (hnm : nm.user = u) :
    findMember (replaceUser ms u nm) u = some nm := by
  induction ms with
  | nil => simp [findMember] at hm
  | cons a t ih =>
    by_cases h : (a.user == u) = true
    · have hrw : replaceUser (a :: t) u nm = nm :: replaceUser t u nm := by
        unfold replaceUser
        rw [List.map_cons, if_pos h]
      rw [hrw]
      simp only [findMember]
      rw [List.find?_cons_of_pos _ (by simp [hnm])]
    · have hneg : (a.user == u) = false := by simpa using h
      have hrw : replaceUser (a :: t) u nm = a :: replaceUser t u nm := by
        unfold replaceUser
        rw [List.map_cons, if_neg (by simp [hneg])]
      simp only [findMember] at hm ih ⊢
      rw [List.find?_cons_of_neg _ (by simp [hneg])] at hm
      rw [hrw, List.find?_cons_of_neg _ (by simp [hneg])]
      exact ih hm

/-- Elements of a written-back list: each is an untouched original row or the
new row (which replaces a row of the same user). -/
theorem mem_replaceUser {ms : List Member} {u : String} {nm x : Member}
    (hx : x ∈ replaceUser ms u nm) :
    (x ∈ ms ∧ (x.user == u) = false) ∨ (x = nm ∧ ∃ y ∈ ms, y.user = u) := by
  rcases List.mem_map.mp hx with ⟨y, hy, hxy⟩
  by_cases h : (y.user == u) = true
  · right
    refine ⟨?_, y, hy, eq_of_beq h⟩
    simpa [h] using hxy.symm
  · left
    simp only [h, if_false] at hxy
    subst hxy
    simp_all

/-! ## Decomposition and counting lemmas for the membership table -/

/-- `find?` returns the first match: the list splits at the found element,
with no match before it. -/
theorem find_decomp {p : Member → Bool} :
    ∀ {ms : List Member} {m : Member}, ms.find? p = some m →
      ∃ l1 l2, ms = l1 ++ m :: l2 ∧ ∀ x ∈ l1, p x = false := by
  intro ms
  induction ms with
  | nil => intro m h; exact absurd h (by simp)
  | cons a t ih =>
    intro m h
    cases hb : p a with
    | false =>
      rw [List.find?_cons_of_neg _ (by simp [hb])] at h
      obtain ⟨l1, l2, hsplit, hfree⟩ := ih h
      refine ⟨a :: l1, l2, by rw [hsplit]; rfl, ?_⟩
      intro x hx
      rcases List.mem_cons.mp hx with h1 | h1
      · rw [h1]; exact hb
      · exact hfree x h1
    | true =>
      rw [List.find?_cons_of_pos _ hb] at h
      cases h
      exact ⟨[], t, rfl, by simp⟩

/-- `findMember` splits the member list at the found row. -/
theorem findMember_decomp {ms : List Member} {u : String} {m : Member}
    (h : findMember ms u = some m) :
    m.user = u ∧ ∃ l1 l2, ms = l1 ++ m :: l2 ∧ ∀ x ∈ l1, x.user ≠ u := by
  have h' : ms.find? (fun x => x.user == u) = some m := h
  have hu : m.user = u := by
    have := List.find?_some h'
    simpa using this
  obtain ⟨l1, l2, hs, hf⟩ := find_decomp h'
  exact ⟨hu, l1, l2, hs, fun x hx => by simpa using hf x hx⟩

/-- A missing user occurs nowhere in the member list. -/
theorem findMember_none {ms : List Member} {u : String} (h : findMember ms u = none) :
    ∀ x ∈ ms, x.user ≠ u := by
  intro x hx he
  have h' : ms.find? (fun x => x.user == u) = none := h
  have := List.find?_eq_none.mp h' x hx
  simp [he] at this

/-- With distinct user ids, nothing to the right of a user's row carries the
same user id. -/
theorem nodup_decomp_right {l1 l2 : List Member} {m : Member} {u : String}
    (hnd : ((l1 ++ m :: l2).map (fun x => x.user)).Nodup) (hu : m.user = u) :
    ∀ x ∈ l2, x.user ≠ u := by
  intro x hx he
  rw [List.map_append, List.map_cons] at hnd
  have h2 := (List.nodup_append.mp hnd).2.1
  have hm : m.user ∉ l2.map (fun x => x.user) := (List.nodup_cons.mp h2).1
  apply hm
  rw [hu, ← he]
  exact List.mem_map_of_mem _ hx

/-- With distinct user ids, any member's row splits the list with its user id
absent on both sides. -/
theorem mem_decomp_nodup {ms : List Member} {w : Member}
    (hnd : (ms.map (fun x => x.user)).Nodup) (hw : w ∈ ms) :
    ∃ l1 l2, ms = l1 ++ w :: l2 ∧ (∀ x ∈ l1, x.user ≠ w.user) ∧
      (∀ x ∈ l2, x.user ≠ w.user) := by
  obtain ⟨l1, l2, hsplit⟩ := List.append_of_mem hw
  subst hsplit
  refine ⟨l1, l2, rfl, ?_, nodup_decomp_right hnd rfl⟩
  intro x hx he
  rw [List.map_append, List.map_cons] at hnd
  have hdisj := (List.nodup_append.mp hnd).2.2
  exact hdisj (he ▸ List.mem_map_of_mem _ hx) (List.mem_cons_self _ _)

/-- Mapping a row-local update over a list that contains user `u` exactly at
the split point rewrites only that row. -/
theorem map_update_decomp (f : Member → Member) {u : String} {l1 l2 : List Member}
    {m : Member} (hm : m.user = u) (h1 : ∀ x ∈ l1, x.user ≠ u)
    (h2 : ∀ x ∈ l2, x.user ≠ u) :
    (l1 ++ m :: l2).map (fun x => if x.user == u then f x else x) = l1 ++ f m :: l2 := by
  have e : ∀ (l : List Member), (∀ x ∈ l, x.user ≠ u) →
      l.map (fun x => if x.user == u then f x else x) = l := by
    intro l hl
    induction l with
    | nil => rfl
    | cons a t ih =>
      simp only [List.map_cons]
      rw [if_neg (by simp [hl a (List.mem_cons_self a t)]),
          ih (fun x hx => hl x (List.mem_cons_of_mem a hx))]
  rw [List.map_append, List.map_cons, e l1 h1, e l2 h2, if_pos (by simp [hm])]

/-- `replaceUser` on a decomposed list rewrites exactly the split row. -/
theorem replaceUser_decomp {u : String} {l1 l2 : List Member} {m : Member} (nm : Member)
    (hm : m.user = u) (h1 : ∀ x ∈ l1, x.user ≠ u) (h2 : ∀ x ∈ l2, x.user ≠ u) :
    replaceUser (l1 ++ m :: l2) u nm = l1 ++ nm :: l2 :=
  map_update_decomp (fun _ => nm) hm h1 h2

/-- Two consecutive write-backs of the same user's row collapse to the last. -/
theorem replaceUser_replaceUser {ms : List Member} {u : String} (nm1 nm2 : Member)
    (h : nm1.user = u) :
    replaceUser (replaceUser ms u nm1) u nm2 = replaceUser ms u nm2 := by
  unfold replaceUser
  rw [List.map_map]
  apply List.map_congr_left
  intro a _
  by_cases ha : (a.user == u) = true
  · simp [Function.comp, ha, h]
  · simp [Function.comp, ha]

/-- A pointwise user-preserving rewrite leaves the user column unchanged. -/
theorem users_map_preserving (f : Member → Member) (h : ∀ x, (f x).user = x.user)
    (ms : List Member) :
    (ms.map f).map (fun x => x.user) = ms.map (fun x => x.user) := by
  rw [List.map_map]
  exact List.map_congr_left (fun a _ => h a)

/-- Writing back a row of the same user leaves the user column unchanged. -/
theorem users_replaceUser {ms : List Member} {u : String} {nm : Member} (h : nm.user = u) :
    (replaceUser ms u nm).map (fun x => x.user) = ms.map (fun x => x.user) := by
  unfold replaceUser
  apply users_map_preserving
  intro x
  by_cases hx : (x.user == u) = true
  · rw [if_pos hx, h]
    exact (eq_of_beq hx).symm
  · rw [if_neg hx]

/-- The promotion sweep leaves the user column unchanged. -/
theorem users_promoteOne (g : Int) (ms : List Member) (t : Nat) :
    (promoteOne g ms t).map (fun x => x.user) = ms.map (fun x => x.user) := by
  unfold promoteOne
  split
  · cases minWaitlisted ms with
    | none => rfl
    | some w =>
      apply users_map_preserving
      intro x
      by_cases hx : (x.user == w.user) = true
      · rw [if_pos hx]
      · rw [if_neg hx]
  · rfl

/-- Rows of a promoted list: untouched originals or a cleared row. -/
theorem mem_promoteOne {g : Int} {ms : List Member} {t : Nat} {x : Member}
    (hx : x ∈ promoteOne g ms t) :
    x ∈ ms ∨ ∃ y ∈ ms, x = { y with wl := none, upd := t } := by
  unfold promoteOne at hx
  split at hx
  · revert hx
    cases minWaitlisted ms with
    | none => intro hx; exact Or.inl hx
    | some w =>
      intro hx
      rcases List.mem_map.mp hx with ⟨y, hy, hxy⟩
      by_cases h : (y.user == w.user) = true
      · rw [if_pos h] at hxy
        exact Or.inr ⟨y, hy, hxy.symm⟩
      · rw [if_neg h] at hxy
        subst hxy
        exact Or.inl hy
  · exact Or.inl hx

/-! ## Counting confirmed and going rows -/

theorem goingCount_append (l1 l2 : List Member) :
    goingCount (l1 ++ l2) = goingCount l1 + goingCount l2 := by
  unfold goingCount
  exact List.countP_append _ _ _

theorem confirmedCount_append (l1 l2 : List Member) :
    confirmedCount (l1 ++ l2) = confirmedCount l1 + confirmedCount l2 := by
  unfold confirmedCount
  exact List.countP_append _ _ _

theorem goingCount_middle (l1 l2 : List Member) (x : Member) :
    goingCount (l1 ++ x :: l2) =
      goingCount l1 + goingCount l2 + (if isGoing x then 1 else 0) := by
  unfold goingCount
  rw [List.countP_append, List.countP_cons]
  omega

theorem confirmedCount_middle (l1 l2 : List Member) (x : Member) :
    confirmedCount (l1 ++ x :: l2) =
      confirmedCount l1 + confirmedCount l2 + (if isConfirmed x then 1 else 0) := by
  unfold confirmedCount
  rw [List.countP_append, List.countP_cons]
  omega

theorem confirmedCount_le_goingCount (ms : List Member) :
    confirmedCount ms ≤ goingCount ms := by
  unfold confirmedCount goingCount
  apply List.countP_mono_left
  intro x _ hx
  unfold isConfirmed at hx
  simp only [Bool.and_eq_true] at hx
  exact hx.1

/-- Excluding the addressed row, the occupied count is the going count of the
two untouched sides. -/
theorem occupiedExcl_decomp {u : String} {l1 l2 : List Member} {m : Member}
    (hm : m.user = u) (h1 : ∀ x ∈ l1, x.user ≠ u) (h2 : ∀ x ∈ l2, x.user ≠ u) :
    occupiedExcl (l1 ++ m :: l2) u = goingCount l1 + goingCount l2 := by
  unfold occupiedExcl
  have e : (l1 ++ m :: l2).filter (fun x => !(x.user == u)) = l1 ++ l2 := by
    rw [List.filter_append, List.filter_cons, if_neg (by simp [hm]),
        List.filter_eq_self.mpr (fun x hx => by simp [h1 x hx]),
        List.filter_eq_self.mpr (fun x hx => by simp [h2 x hx])]
  rw [e]
  exact goingCount_append l1 l2

/-- Writing back an unconfirmed row keeps the confirmed count within the
limit. -/
theorem write_row_cap {ms : List Member} {u : String} {m : Member} (nm : Member) {g : Int}
    (hnd : (ms.map (fun x => x.user)).Nodup)
    (hfind : findMember ms u = some m)
    (hnm : isConfirmed nm = false)
    (hcap : (confirmedCount ms : Int) ≤ g) :
    (confirmedCount (replaceUser ms u nm) : Int) ≤ g := by
  obtain ⟨hu, l1, l2, hsplit, h1⟩ := findMember_decomp hfind
  have h2 : ∀ x ∈ l2, x.user ≠ u := nodup_decomp_right (hsplit ▸ hnd) hu
  rw [hsplit, replaceUser_decomp nm hu h1 h2, confirmedCount_middle, hnm]
  rw [hsplit, confirmedCount_middle] at hcap
  simp only [Bool.false_eq_true, if_false]
  push_cast at hcap ⊢
  split at hcap <;> omega

/-- Writing back any single row keeps the confirmed count within the limit as
soon as the other rows leave a seat free. -/
theorem write_row_cap_occ {ms : List Member} {u : String} {m : Member} (nm : Member) {g : Int}
    (hnd : (ms.map (fun x => x.user)).Nodup)
    (hfind : findMember ms u = some m)
    (hocc : (occupiedExcl ms u : Int) + 1 ≤ g) :
    (confirmedCount (replaceUser ms u nm) : Int) ≤ g := by
  obtain ⟨hu, l1, l2, hsplit, h1⟩ := findMember_decomp hfind
  have h2 : ∀ x ∈ l2, x.user ≠ u := nodup_decomp_right (hsplit ▸ hnd) hu
  rw [hsplit, replaceUser_decomp nm hu h1 h2, confirmedCount_middle]
  rw [hsplit, occupiedExcl_decomp hu h1 h2] at hocc
  have b1 := confirmedCount_le_goingCount l1
  have b2 := confirmedCount_le_goingCount l2
  push_cast at hocc ⊢
  split <;> omega

/-- Writing back a going row makes the going count one more than the occupied
count without it. -/
theorem goingCount_write_going {ms : List Member} {u : String} {m : Member} (nm : Member)
    (hnd : (ms.map (fun x => x.user)).Nodup)
    (hfind : findMember ms u = some m)
    (hgo : isGoing nm = true) :
    goingCount (replaceUser ms u nm) = occupiedExcl ms u + 1 := by
  obtain ⟨hu, l1, l2, hsplit, h1⟩ := findMember_decomp hfind
  have h2 : ∀ x ∈ l2, x.user ≠ u := nodup_decomp_right (hsplit ▸ hnd) hu
  rw [hsplit, replaceUser_decomp nm hu h1 h2, goingCount_middle, hgo,
      occupiedExcl_decomp hu h1 h2]
  simp

/-! ## The promotion sweep's pick -/

/-- The picked member is a waitlisted going row of the list. -/
theorem minWaitlisted_mem {ms : List Member} {w : Member}
    (h : minWaitlisted ms = some w) : w ∈ ms ∧ isWaitGoing w = true := by
  unfold minWaitlisted at h
  have hperm := List.perm_insertionSort wlLe (ms.filter isWaitGoing)
  have hmem : w ∈ sortByWl (ms.filter isWaitGoing) := by
    unfold sortByWl
    cases hl : List.insertionSort wlLe (ms.filter isWaitGoing) with
    | nil => rw [sortByWl, hl] at h; exact absurd h (by simp)
    | cons a t =>
      rw [sortByWl, hl] at h
      simp only [List.head?] at h
      cases h
      exact List.mem_cons_self _ _
  have hfl : w ∈ ms.filter isWaitGoing := hperm.subset hmem
  exact ⟨(List.mem_filter.mp hfl).1, (List.mem_filter.mp hfl).2⟩

/-- The promotion sweep never pushes the confirmed count above the limit. -/
theorem cap_promoteOne {g : Int} {ms : List Member} {t : Nat}
    (hnd : (ms.map (fun x => x.user)).Nodup)
    (hcap : (confirmedCount ms : Int) ≤ g) :
    (confirmedCount (promoteOne g ms t) : Int) ≤ g := by
  unfold promoteOne
  split
  · rename_i hlt
    cases hw : minWaitlisted ms with
    | none => exact hcap
    | some w =>
      obtain ⟨hwmem, _⟩ := minWaitlisted_mem hw
      obtain ⟨l1, l2, hsplit, h1, h2⟩ := mem_decomp_nodup hnd hwmem
      dsimp only
      rw [hsplit, map_update_decomp _ rfl h1 h2, confirmedCount_middle]
      rw [hsplit, confirmedCount_middle] at hlt
      push_cast at hlt ⊢
      split at hlt <;> split <;> omega
  · exact hcap

/-! ## The `updated_at`-ordered position logic of `respond_to_invite` -/

/-- First index of the only match sitting at the end of the list. -/
theorem findIdx_append_singleton {p : Member → Bool} :
    ∀ (ys : List Member) (m : Member), (∀ x ∈ ys, p x = false) → p m = true →
      List.findIdx? p (ys ++ [m]) = some ys.length := by
  intro ys
  induction ys with
  | nil =>
    intro m _ hm
    simp [List.findIdx?_cons, hm]
  | cons a t ih =>
    intro m h hm
    rw [List.cons_append, List.findIdx?_cons,
        if_neg (by simp [h a (List.mem_cons_self a t)]), List.findIdx?_succ,
        ih m (fun x hx => h x (List.mem_cons_of_mem a hx)) hm]
    rfl

/-- `posOf` of the only match, sitting at the end of the list. -/
theorem posOf_append_singleton {u : String} {ys : List Member} {m : Member}
    (h : ∀ x ∈ ys, (x.user == u) = false) (hm : (m.user == u) = true) :
    posOf u (ys ++ [m]) = ys.length := by
  unfold posOf
  rw [findIdx_append_singleton ys m h hm]

/-- In a list sorted by `updated_at` where user `u`'s row carries a strictly
maximal stamp, that row sits at the very end. -/
theorem sorted_unique_max_last {gs : List Member} {m1 : Member} {u : String}
    (hnd : (gs.map (fun x => x.user)).Nodup)
    (hs : List.Pairwise updLe gs) (hm : m1 ∈ gs) (hu : m1.user = u)
    (hmax : ∀ x ∈ gs, x.user ≠ u → x.upd < m1.upd) :
    ∃ ys, gs = ys ++ [m1] ∧ ∀ x ∈ ys, (x.user == u) = false := by
  rcases List.eq_nil_or_concat gs with hnil | ⟨ys, lst, hsplit⟩
  · rw [hnil] at hm
    exact absurd hm (List.not_mem_nil m1)
  · rw [List.concat_eq_append] at hsplit
    subst hsplit
    by_cases hl : lst.user = u
    · have hfree : ∀ x ∈ ys, x.user ≠ u := by
        intro x hx he
        rw [List.map_append] at hnd
        have hdisj := (List.nodup_append.mp hnd).2.2
        have hu1 : u ∈ ys.map (fun x => x.user) := by
          rw [← he]
          exact List.mem_map_of_mem _ hx
        have hu2 : u ∈ [lst].map (fun x => x.user) := by simp [hl]
        exact hdisj hu1 hu2
      have hm1 : m1 = lst := by
        rcases List.mem_append.mp hm with h1 | h1
        · exact absurd hu (hfree m1 h1)
        · simpa using h1
      subst hm1
      exact ⟨ys, rfl, fun x hx => by simp [hfree x hx]⟩
    · exfalso
      have hlt : lst.upd < m1.upd :=
        hmax lst (List.mem_append_right ys (List.mem_singleton_self lst)) hl
      have hm1ys : m1 ∈ ys := by
        rcases List.mem_append.mp hm with h1 | h1
        · exact h1
        · have he : m1 = lst := by simpa using h1
          exact absurd (he ▸ hu) hl
      have hle : updLe m1 lst := by
        have hp := List.pairwise_append.mp hs
        exact hp.2.2 m1 hm1ys lst (List.mem_singleton_self lst)
      exact absurd hle (by unfold updLe; omega)

/-! ## Row-wise transfer of the invariants through writes -/

theorem upd_bound_replaceUser {ms : List Member} {u : String} {nm : Member} {c : Nat}
    (hms : ∀ x ∈ ms, x.upd < c) (hnm : nm.upd < c) :
    ∀ x ∈ replaceUser ms u nm, x.upd < c := by
  intro x hx
  rcases mem_replaceUser hx with ⟨h1, _⟩ | ⟨h1, _⟩
  · exact hms x h1
  · rw [h1]; exact hnm

theorem upd_bound_promoteOne {g : Int} {ms : List Member} {t c : Nat}
    (hms : ∀ x ∈ ms, x.upd < c) (ht : t < c) :
    ∀ x ∈ promoteOne g ms t, x.upd < c := by
  intro x hx
  rcases mem_promoteOne hx with h1 | ⟨y, hy, hxy⟩
  · exact hms x h1
  · rw [hxy]; exact ht

/-- A conditionally stamped `updated_at` value stays below any bound that
both candidate stamps satisfy. -/
theorem stamp_lt {a b c : Nat} (p : Prop) [Decidable p] (ha : a < c) (hb : b < c) :
    (if p then a else b) < c := by
  split
  · exact ha
  · exact hb

theorem wl_going_replaceUser {ms : List Member} {u : String} {nm : Member}
    (hms : ∀ x ∈ ms, x.wl ≠ none → x.rsvp = .going ∨ x.rsvp = .pending)
    (hnm : nm.wl ≠ none → nm.rsvp = .going ∨ nm.rsvp = .pending) :
    ∀ x ∈ replaceUser ms u nm, x.wl ≠ none → x.rsvp = .going ∨ x.rsvp = .pending := by
  intro x hx
  rcases mem_replaceUser hx with ⟨h1, _⟩ | ⟨h1, _⟩
  · exact hms x h1
  · rw [h1]; exact hnm

theorem wl_going_promoteOne {g : Int} {ms : List Member} {t : Nat}
    (hms : ∀ x ∈ ms, x.wl ≠ none → x.rsvp = .going ∨ x.rsvp = .pending) :
    ∀ x ∈ promoteOne g ms t, x.wl ≠ none → x.rsvp = .going ∨ x.rsvp = .pending := by
  intro x hx
  rcases mem_promoteOne hx with h1 | ⟨y, hy, hxy⟩
  · exact hms x h1
  · rw [hxy]
    intro hwl
    exact absurd rfl hwl

/-- Appending a fresh user keeps the user column duplicate-free. -/
theorem nodup_users_append_fresh {ms : List Member} {u : String} (nm : Member)
    (hnd : (ms.map (fun x => x.user)).Nodup) (hfresh : ∀ x ∈ ms, x.user ≠ u)
    (hu : nm.user = u) :
    ((ms ++ [nm]).map (fun x => x.user)).Nodup := by
  rw [List.map_append]
  apply List.nodup_append.mpr
  refine ⟨hnd, by simp, ?_⟩
  intro a ha hb
  simp only [List.map_cons, List.map_nil, List.mem_singleton] at hb
  rcases List.mem_map.mp ha with ⟨y, hy, hya⟩
  exact hfresh y hy (by rw [hya, hb]; exact hu)

/-- Looking up a freshly appended user finds the appended row. -/
theorem findMember_append_fresh {ms : List Member} {u : String} (nm : Member)
    (hfresh : ∀ x ∈ ms, x.user ≠ u) (hu : nm.user = u) :
    findMember (ms ++ [nm]) u = some nm := by
  unfold findMember
  induction ms with
  | nil => rw [List.nil_append, List.find?_cons_of_pos _ (by simp [hu])]
  | cons a t ih =>
    rw [List.cons_append,
        List.find?_cons_of_neg _ (by simp [hfresh a (List.mem_cons_self a t)])]
    exact ih (fun x hx => hfresh x (List.mem_cons_of_mem a hx))

/-- The freshly stamped going row of user `u` rides at the end of the
`ORDER BY updated_at` going list: the `for`-loop break position of
`respond_to_invite` is the going count minus one. -/
theorem posOf_fresh_going {ms : List Member} {u : String} {m : Member} (nm : Member)
    (hnd : (ms.map (fun x => x.user)).Nodup)
    (hupd : ∀ x ∈ ms, x.upd < nm.upd)
    (hfind : findMember ms u = some m)
    (hu : nm.user = u) (hgo : isGoing nm = true) :
    posOf u (sortByUpd ((replaceUser ms u nm).filter isGoing)) + 1 =
      goingCount (replaceUser ms u nm) := by
  have husers : (replaceUser ms u nm).map (fun x => x.user) = ms.map (fun x => x.user) :=
    users_replaceUser hu
  have hnd1 : ((replaceUser ms u nm).map (fun x => x.user)).Nodup := husers ▸ hnd
  have hndfl : (((replaceUser ms u nm).filter isGoing).map (fun x => x.user)).Nodup := by
    have hsub : ((replaceUser ms u nm).filter isGoing).Sublist (replaceUser ms u nm) :=
      List.filter_sublist _
    exact List.Nodup.sublist (hsub.map (fun x => x.user)) hnd1
  have hperm := List.perm_insertionSort updLe ((replaceUser ms u nm).filter isGoing)
  have hnds : ((sortByUpd ((replaceUser ms u nm).filter isGoing)).map
      (fun x => x.user)).Nodup :=
    ((hperm.map (fun x => x.user)).nodup_iff).mpr hndfl
  have hsorted : List.Pairwise updLe (sortByUpd ((replaceUser ms u nm).filter isGoing)) :=
    List.sorted_insertionSort updLe _
  have hnm1 : nm ∈ replaceUser ms u nm :=
    (findMember_mem (findMember_replaceUser hfind hu)).1
  have hnmgs : nm ∈ sortByUpd ((replaceUser ms u nm).filter isGoing) :=
    hperm.mem_iff.mpr (List.mem_filter.mpr ⟨hnm1, hgo⟩)
  have hmax : ∀ x ∈ sortByUpd ((replaceUser ms u nm).filter isGoing),
      x.user ≠ u → x.upd < nm.upd := by
    intro x hx hxu
    have hxms1 : x ∈ replaceUser ms u nm :=
      (List.mem_filter.mp (hperm.mem_iff.mp hx)).1
    rcases mem_replaceUser hxms1 with ⟨h1, _⟩ | ⟨h1, _⟩
    · exact hupd x h1
    · rw [h1] at hxu
      exact absurd hu hxu
  obtain ⟨ys, hys, hfree⟩ := sorted_unique_max_last hnds hsorted hnmgs hu hmax
  rw [hys, posOf_append_singleton hfree (by simp [hu])]
  have hlen : (sortByUpd ((replaceUser ms u nm).filter isGoing)).length =
      goingCount (replaceUser ms u nm) := by
    unfold sortByUpd goingCount
    rw [hperm.length_eq, List.countP_eq_length_filter]
  rw [hys] at hlen
  simp only [List.length_append, List.length_cons, List.length_nil] at hlen
  omega

/-! ## Small wrappers keeping the user column duplicate-free -/

theorem users_write_nodup {ms : List Member} {u : String} {nm : Member}
    (hnd : (ms.map (fun x => x.user)).Nodup) (h : nm.user = u) :
    ((replaceUser ms u nm).map (fun x => x.user)).Nodup := by
  rw [users_replaceUser h]
  exact hnd

theorem users_promote_nodup {g : Int} {ms : List Member} {t : Nat}
    (hnd : (ms.map (fun x => x.user)).Nodup) :
    ((promoteOne g ms t).map (fun x => x.user)).Nodup := by
  rw [users_promoteOne]
  exact hnd

/-- Step invariants of `join_trip`: the appended row is a fresh pending row. -/
theorem join_step_inv {s : TripState} (u : String) (w : Option Int)
    (ihN : (s.members.map (fun x => x.user)).Nodup)
    (ihU : ∀ m ∈ s.members, m.upd < s.clock)
    (ihW : ∀ m ∈ s.members, m.wl ≠ none → m.rsvp = .going ∨ m.rsvp = .pending)
    (hnone : findMember s.members u = none) :
    ((s.members ++ [(⟨u, .guest, .pending, w, s.clock⟩ : Member)]).map (fun x => x.user)).Nodup ∧
    (∀ m ∈ s.members ++ [(⟨u, .guest, .pending, w, s.clock⟩ : Member)], m.upd < s.clock + 2) ∧
    (∀ m ∈ s.members ++ [(⟨u, .guest, .pending, w, s.clock⟩ : Member)],
      m.wl ≠ none → m.rsvp = .going ∨ m.rsvp = .pending) := by
  refine ⟨nodup_users_append_fresh _ ihN (findMember_none hnone) rfl, ?_, ?_⟩
  · intro x hx
    rcases List.mem_append.mp hx with h1 | h1
    · have := ihU x h1
      omega
    · have hx2 : x = ⟨u, .guest, .pending, w, s.clock⟩ := by simpa using h1
      rw [hx2]
      show s.clock < s.clock + 2
      omega
  · intro x hx hwl
    rcases List.mem_append.mp hx with h1 | h1
    · exact ihW x h1 hwl
    · have hx2 : x = ⟨u, .guest, .pending, w, s.clock⟩ := by simpa using h1
      rw [hx2]
      right
      rfl

/-- Step invariants of `respond_to_invitation`, over the base member list
produced by the create-if-missing step (`msB`) and the addressed row `m`. -/
theorem invitation_core_inv (gl : Option Int) (clk : Nat) (msB : List Member) (m : Member)
    {u : String}
    (hndB : (msB.map (fun x => x.user)).Nodup)
    (hfmB : findMember msB u = some m)
    (hUB : ∀ x ∈ msB, x.upd < clk + 2)
    (hWB : ∀ x ∈ msB, x.wl ≠ none → x.rsvp = .going ∨ x.rsvp = .pending)
    (st : IStatus) :
    ∀ ms', ms' =
      (if st = .not_going ∧ limitTruthy gl then
        promoteOne (gl.getD 0)
          (replaceUser msB u
            { m with rsvp := st.toRsvp,
                     wl := if st = .going then
                             (if limitTruthy gl then
                                (if gl.getD 0 < (occupiedExcl msB u : Int) + 1
                                 then some (maxWl msB + 1) else none)
                              else m.wl)
                           else none,
                     role := if st = .going then .guest else .viewer,
                     upd := clk }) (clk + 1)
      else
        replaceUser msB u
          { m with rsvp := st.toRsvp,
                   wl := if st = .going then
                           (if limitTruthy gl then
                              (if gl.getD 0 < (occupiedExcl msB u : Int) + 1
                               then some (maxWl msB + 1) else none)
                            else m.wl)
                         else none,
                   role := if st = .going then .guest else .viewer,
                   upd := clk }) →
      (ms'.map (fun x => x.user)).Nodup ∧
      (∀ x ∈ ms', x.upd < clk + 2) ∧
      (∀ x ∈ ms', x.wl ≠ none → x.rsvp = .going ∨ x.rsvp = .pending) := by
  intro ms' hms'
  subst hms'
  have hmu : m.user = u := (findMember_mem hfmB).2
  have hrow : (if st = .going then
        (if limitTruthy gl then
           (if gl.getD 0 < (occupiedExcl msB u : Int) + 1
            then some (maxWl msB + 1) else none)
         else m.wl)
      else none) ≠ none → st.toRsvp = .going ∨ st.toRsvp = .pending := by
    intro hwl
    cases st with
    | going => exact Or.inl rfl
    | maybe => simp at hwl
    | not_going => simp at hwl
  split
  · exact ⟨users_promote_nodup (users_write_nodup hndB hmu),
           upd_bound_promoteOne
             (upd_bound_replaceUser hUB (show clk < clk + 2 by omega))
             (show clk + 1 < clk + 2 by omega),
           wl_going_promoteOne (wl_going_replaceUser hWB hrow)⟩
  · exact ⟨users_write_nodup hndB hmu,
           upd_bound_replaceUser hUB (show clk < clk + 2 by omega),
           wl_going_replaceUser hWB hrow⟩

set_option maxHeartbeats 1000000 in
/-- The state invariant of the RSVP routes, by induction over reachability:
distinct user ids, row stamps strictly below the clock, and every waitlisted
row being a going or pending request.  (No capacity bound appears here: the
spec's capacity invariant is false on the program — see `claim_C3`.) -/
theorem reachable_inv {s : TripState} (h : Reachable s) :
    (s.members.map (fun x => x.user)).Nodup ∧
    (∀ m ∈ s.members, m.upd < s.clock) ∧
    (∀ m ∈ s.members, m.wl ≠ none → m.rsvp = .going ∨ m.rsvp = .pending) := by
  induction h with
  | init creator g0 =>
    refine ⟨by simp [init_trip], ?_, ?_⟩
    · intro m hm
      have hm2 : m = ⟨creator, .planner, .going, none, 0⟩ := by
        simpa [init_trip] using hm
      rw [hm2]
      show 0 < 1
      omega
    · intro m hm hwl
      have hm2 : m = ⟨creator, .planner, .going, none, 0⟩ := by
        simpa [init_trip] using hm
      rw [hm2] at hwl
      exact absurd rfl hwl
  | @join s s' u hr hok ih =>
    obtain ⟨ihN, ihU, ihW⟩ := ih
    simp only [join_trip] at hok
    split at hok
    · exact Except.noConfusion hok
    · rename_i hsome
      have hnone : findMember s.members u = none := by
        cases hfm : findMember s.members u with
        | none => rfl
        | some m => rw [hfm] at hsome; simp at hsome
      cases hgl : s.guestLimit with
      | none =>
        rw [hgl] at hok
        simp only [Except.ok.injEq] at hok
        subst hok
        exact join_step_inv u none ihN ihU ihW hnone
      | some g1 =>
        rw [hgl] at hok
        simp only at hok
        split at hok
        · split at hok
          · simp only [Except.ok.injEq] at hok
            subst hok
            exact join_step_inv u (some (maxWl s.members + 1)) ihN ihU ihW hnone
          · simp only [Except.ok.injEq] at hok
            subst hok
            exact join_step_inv u none ihN ihU ihW hnone
        · simp only [Except.ok.injEq] at hok
          subst hok
          exact join_step_inv u none ihN ihU ihW hnone
  | @respond s s' u resp hr hok ih =>
    obtain ⟨ihN, ihU, ihW⟩ := ih
    cases hfm : findMember s.members u with
    | none =>
      simp only [respond_to_invite, hfm] at hok
      split at hok
      · exact Except.noConfusion hok
      · exact Except.noConfusion hok
    | some m =>
      simp only [respond_to_invite, hfm] at hok
      split at hok
      · exact Except.noConfusion hok
      · rename_i hpend
        simp only [Except.ok.injEq] at hok
        subst hok
        have hmu : m.user = u := (findMember_mem hfm).2
        have hmlt : m.upd < s.clock := ihU m (findMember_mem hfm).1
        have hU2 : ∀ x ∈ s.members, x.upd < s.clock + 2 :=
          fun x hx => Nat.lt_trans (ihU x hx) (by omega)
        cases resp with
        | pending => exact absurd rfl hpend
        | going =>
          have hm1u : ({ m with rsvp := .going, upd := if Rsvp.going = m.rsvp then m.upd else s.clock } : Member).user = u := hmu
          rw [if_neg (by simp : ¬(Rsvp.going = .no ∧ limitTruthy s.guestLimit))]
          by_cases htr : limitTruthy s.guestLimit = true
          · rw [if_pos (⟨rfl, htr⟩ : Rsvp.going = .going ∧ limitTruthy s.guestLimit)]
            by_cases hover : s.guestLimit.getD 0 <
                (goingCount (replaceUser s.members u { m with rsvp := .going, upd := if Rsvp.going = m.rsvp then m.upd else s.clock }) : Int)
            · rw [if_pos hover, replaceUser_replaceUser _ _ hm1u]
              exact ⟨users_write_nodup ihN hmu,
                     upd_bound_replaceUser hU2 (stamp_lt (c := s.clock + 2) _ (by omega) (by omega)),
                     wl_going_replaceUser ihW (fun _ => Or.inl rfl)⟩
            · rw [if_neg hover]
              exact ⟨users_write_nodup ihN hmu,
                     upd_bound_replaceUser hU2 (stamp_lt (c := s.clock + 2) _ (by omega) (by omega)),
                     wl_going_replaceUser ihW (fun _ => Or.inl rfl)⟩
          · rw [if_neg (fun hc => absurd hc.2 htr),
                if_neg (by simp : ¬(Rsvp.going ≠ Rsvp.going))]
            exact ⟨users_write_nodup ihN hmu,
                   upd_bound_replaceUser hU2 (stamp_lt (c := s.clock + 2) _ (by omega) (by omega)),
                   wl_going_replaceUser ihW (fun _ => Or.inl rfl)⟩
        | maybe =>
          have hm1u : ({ m with rsvp := .maybe, upd := if Rsvp.maybe = m.rsvp then m.upd else s.clock } : Member).user = u := hmu
          rw [if_neg (by simp : ¬(Rsvp.maybe = .no ∧ limitTruthy s.guestLimit)),
              if_neg (by simp : ¬(Rsvp.maybe = .going ∧ limitTruthy s.guestLimit)),
              if_pos (by simp : Rsvp.maybe ≠ Rsvp.going),
              replaceUser_replaceUser _ _ hm1u]
          exact ⟨users_write_nodup ihN hmu,
                 upd_bound_replaceUser hU2 (stamp_lt (c := s.clock + 2) _ (by omega) (by omega)),
                 wl_going_replaceUser ihW (fun hwl => absurd rfl hwl)⟩
        | no =>
          have hm1u : ({ m with rsvp := .no, upd := if Rsvp.no = m.rsvp then m.upd else s.clock } : Member).user = u := hmu
          rw [if_neg (by simp : ¬(Rsvp.no = .going ∧ limitTruthy s.guestLimit)),
              if_pos (by simp : Rsvp.no ≠ Rsvp.going),
              replaceUser_replaceUser _ _ hm1u]
          by_cases htr : limitTruthy s.guestLimit = true
          · rw [if_pos (⟨rfl, htr⟩ : Rsvp.no = .no ∧ limitTruthy s.guestLimit)]
            exact ⟨users_promote_nodup (users_write_nodup ihN hmu),
                   upd_bound_promoteOne
                     (upd_bound_replaceUser hU2 (stamp_lt (c := s.clock + 2) _ (by omega) (by omega)))
                     (by dsimp only; omega),
                   wl_going_promoteOne
                     (wl_going_replaceUser ihW (fun hwl => absurd rfl hwl))⟩
          · rw [if_neg (fun hc => absurd hc.2 htr)]
            exact ⟨users_write_nodup ihN hmu,
                   upd_bound_replaceUser hU2 (stamp_lt (c := s.clock + 2) _ (by omega) (by omega)),
                   wl_going_replaceUser ihW (fun hwl => absurd rfl hwl)⟩
  | @update s s' u st hr hok ih =>
    obtain ⟨ihN, ihU, ihW⟩ := ih
    cases hfm : findMember s.members u with
    | none =>
      simp only [update_rsvp, hfm] at hok
      exact Except.noConfusion hok
    | some m =>
      simp only [update_rsvp, hfm, Except.ok.injEq] at hok
      subst hok
      have hmu : m.user = u := (findMember_mem hfm).2
      have hU2 : ∀ x ∈ s.members, x.upd < s.clock + 2 :=
        fun x hx => Nat.lt_trans (ihU x hx) (by omega)
      refine ⟨users_write_nodup ihN hmu,
              upd_bound_replaceUser hU2 (show s.clock < s.clock + 2 by omega),
              wl_going_replaceUser ihW ?_⟩
      intro hwl
      cases st with
      | going => exact Or.inl rfl
      | maybe => simp at hwl
      | not_going => simp at hwl
      | pending => simp at hwl
  | @invitation s s' u st hr hok ih =>
    obtain ⟨ihN, ihU, ihW⟩ := ih
    have hU2 : ∀ x ∈ s.members, x.upd < s.clock + 2 :=
      fun x hx => Nat.lt_trans (ihU x hx) (by omega)
    cases hfm : findMember s.members u with
    | some m =>
      simp only [respond_to_invitation, invitationCore, invitationBase, hfm,
                 Except.ok.injEq] at hok
      subst hok
      exact invitation_core_inv s.guestLimit s.clock s.members m ihN hfm hU2 ihW st _ rfl
    | none =>
      simp only [respond_to_invitation, invitationCore, invitationBase, hfm,
                 Except.ok.injEq] at hok
      subst hok
      have hfresh : ∀ x ∈ s.members, x.user ≠ u := findMember_none hfm
      have hndB := nodup_users_append_fresh
        (⟨u, .viewer, .pending, none, s.clock⟩ : Member) ihN hfresh rfl
      have hfmB := findMember_append_fresh
        (⟨u, .viewer, .pending, none, s.clock⟩ : Member) hfresh rfl
      have hUB : ∀ x ∈ s.members ++ [(⟨u, .viewer, .pending, none, s.clock⟩ : Member)],
          x.upd < s.clock + 2 := by
        intro x hx
        rcases List.mem_append.mp hx with h1 | h1
        · exact hU2 x h1
        · have hx2 : x = ⟨u, .viewer, .pending, none, s.clock⟩ := by simpa using h1
          rw [hx2]
          show s.clock < s.clock + 2
          omega
      have hWB : ∀ x ∈ s.members ++ [(⟨u, .viewer, .pending, none, s.clock⟩ : Member)],
          x.wl ≠ none → x.rsvp = .going ∨ x.rsvp = .pending := by
        intro x hx hwl
        rcases List.mem_append.mp hx with h1 | h1
        · exact ihW x h1 hwl
        · have hx2 : x = ⟨u, .viewer, .pending, none, s.clock⟩ := by simpa using h1
          rw [hx2] at hwl
          exact absurd rfl hwl
      exact invitation_core_inv s.guestLimit s.clock _ _ hndB hfmB hUB hWB st _ rfl

/-! ## Claim C3 — the capacity invariant

The spec's capacity invariant is **false on the program**.  Two separate
mechanisms break it: (1) `create_trip` stores `guest_limit` unvalidated and
every capacity guard is Python-truthy (`if trip.guest_limit:`), so a stored
limit of 0 disables all of them while remaining non-null, and the creator is
inserted confirmed (1 > 0); (2) even for a positive limit, `updated_at`
(`onupdate=func.now()`) is refreshed only when a flush emits an UPDATE, so a
member who re-sends their stored `'going'` status through POST /respond
keeps a stale stamp, ranks *first* in the `ORDER BY updated_at` going list
(`rsvp.py` lines 117–134), gets `position < guest_limit`, and has their
`waitlist_position` cleared while the trip is over capacity. -/

/-- C3: the capacity invariant fails on a reachable trip with the positive
guest limit 1.  Trace: U joins (waitlisted pending), U updates to going
(waitlisted at position 2), V joins, V updates to going (position 4), the
creator responds `no` (the sweep promotes U), and V re-sends the stored
`going` status through POST /respond: V's stale `updated_at` ranks V first
in the ordering loop, so V's waitlist position is cleared too — two
confirmed members on a one-seat trip. -/
theorem claim_C3 :
    ∃ s : TripState, Reachable s ∧ s.guestLimit = some 1 ∧
      confirmedCount s.members = 2 ∧ ¬((confirmedCount s.members : Int) ≤ 1) := by
  refine ⟨⟨some 1, [⟨"a", .planner, .no, none, 9⟩, ⟨"u", .guest, .going, none, 10⟩,
                    ⟨"v", .guest, .going, none, 11⟩], 13⟩,
          ?_, rfl, rfl, by decide⟩
  exact .respond "v" .going
    (.respond "a" .no
      (.update "v" .going
        (.join "v"
          (.update "u" .going
            (.join "u" (.init "a" (some 1)) rfl)
            rfl)
          rfl)
        rfl)
      rfl)
    rfl


/-! ## Claim C9 — waitlisted rows and their RSVP status

`join_trip` (`rsvp.py` lines 34–62) creates the at-capacity membership with
`rsvp_status='pending'` and a non-null `waitlist_position`, so "waitlisted ⇒
going" fails; the invariant that does hold is waitlisted ⇒ going or
pending. -/

/-- C9 (corrected): in every reachable state, every member with a non-null
`waitlist_position` has `rsvp_status` going **or pending** (the pending case
arising exactly from `join_trip` on a full trip). -/
theorem claim_C9 {s : TripState} (h : Reachable s) :
    ∀ m ∈ s.members, m.wl ≠ none → m.rsvp = .going ∨ m.rsvp = .pending :=
  (reachable_inv h).2.2

/-- C9 witness: in the reachable state where "b" joined a full
`guest_limit = 1` trip, b's waitlisted row is going-or-pending. -/
theorem claim_C9_witness :
    (⟨"b", .guest, .pending, some 1, 1⟩ : Member).rsvp = .going ∨
    (⟨"b", .guest, .pending, some 1, 1⟩ : Member).rsvp = .pending :=
  claim_C9
    (s := ⟨some 1, [⟨"a", .planner, .going, none, 0⟩, ⟨"b", .guest, .pending, some 1, 1⟩], 3⟩)
    (.join "b" (.init "a" (some 1)) rfl)
    ⟨"b", .guest, .pending, some 1, 1⟩ (by decide) (by decide)

/-- C9 counterexample to the claim as stated: the membership `join_trip`
creates on an at-capacity trip is waitlisted (`waitlist_position = 1`) with
`rsvp_status = 'pending'`, not `'going'` as the spec says. -/
theorem claim_C9_cex :
    ∃ s : TripState, Reachable s ∧
      ∃ m ∈ s.members, m.wl ≠ none ∧ m.rsvp ≠ .going :=
  ⟨⟨some 1, [⟨"a", .planner, .going, none, 0⟩, ⟨"b", .guest, .pending, some 1, 1⟩], 3⟩,
   .join "b" (.init "a" (some 1)) rfl,
   ⟨"b", .guest, .pending, some 1, 1⟩, by decide, by decide, by decide⟩

/-! ## Claim C4 — the promotion sweep

In the code the sweep exists only in `respond_to_invite` (trigger:
`response == 'no'`, lines 141–160) and `respond_to_invitation` (trigger:
`status == 'not_going'`, lines 367–386).  `update_rsvp` has no sweep at all,
and no route sweeps on `maybe`.  When the sweep does run below capacity, its
query filters on `rsvp_status='going' AND waitlist_position IS NOT NULL`, so
it clears the position of exactly the **going** waitlisted member with the
smallest position — waitlisted `pending` rows (reachable per C9) are
skipped. -/

theorem rolePreserved_replaceUser {ms : List Member} {u : String} {m nm : Member}
    (hm : findMember ms u = some m) (hu : nm.user = m.user) (hr : nm.role = m.role) :
    rolePreserved ms (replaceUser ms u nm) := by
  intro x hx
  rcases mem_replaceUser hx with ⟨hmem, _⟩ | ⟨hx2, _, _, _⟩
  · exact ⟨x, hmem, rfl, rfl⟩
  · subst hx2
    exact ⟨m, (findMember_mem hm).1, hu.symm, hr.symm⟩

theorem rolePreserved_promoteOne (g : Int) (ms : List Member) (tick : Nat) :
    rolePreserved ms (promoteOne g ms tick) := by
  intro x hx
  unfold promoteOne at hx
  split at hx
  · rcases h2 : minWaitlisted ms with _ | w
    · rw [h2] at hx
      exact ⟨x, hx, rfl, rfl⟩
    · rw [h2] at hx
      rcases List.mem_map.mp hx with ⟨y, hy, hxy⟩
      by_cases h : (y.user == w.user) = true
      · rw [if_pos h] at hxy
        exact ⟨y, hy, by simp [← hxy], by simp [← hxy]⟩
      · rw [if_neg h] at hxy
        subst hxy
        exact ⟨y, hy, rfl, rfl⟩
  · exact ⟨x, hx, rfl, rfl⟩

theorem rolePreserved_rfl (ms : List Member) : rolePreserved ms ms :=
  fun x hx => ⟨x, hx, rfl, rfl⟩

theorem rolePreserved_trans {ms ns os : List Member}
    (h1 : rolePreserved ms ns) (h2 : rolePreserved ns os) : rolePreserved ms os := by
  intro x hx
  rcases h2 x hx with ⟨y, hy, hyu, hyr⟩
  rcases h1 y hy with ⟨z, hz, hzu, hzr⟩
  exact ⟨z, hz, hzu.trans hyu, hzr.trans hyr⟩

/-- Looking a user up through a user-preserving row rewrite. -/
theorem findMember_map_user_preserving (f : Member → Member)
    (hf : ∀ x, (f x).user = x.user) (u : String) :
    ∀ ms : List Member, findMember (ms.map f) u = (findMember ms u).map f := by
  intro ms
  induction ms with
  | nil => rfl
  | cons a t ih =>
    unfold findMember at ih ⊢
    by_cases h : (a.user == u) = true
    · have hpos : ((f a).user == u) = true := by rw [hf a]; exact h
      rw [List.map_cons, List.find?_cons_of_pos (p := fun m : Member => m.user == u) _ hpos,
          List.find?_cons_of_pos (p := fun m : Member => m.user == u) _ h]
      rfl
    · have hneg : ¬((f a).user == u) = true := by rw [hf a]; exact h
      rw [List.map_cons, List.find?_cons_of_neg (p := fun m : Member => m.user == u) _ hneg,
          List.find?_cons_of_neg (p := fun m : Member => m.user == u) _ h]
      exact ih

/-- A user's row survives the promotion sweep with its role unchanged. -/
theorem findMember_promoteOne {g : Int} {ms : List Member} {t : Nat} {u : String}
    {r : Member} (h : findMember ms u = some r) :
    ∃ r', findMember (promoteOne g ms t) u = some r' ∧ r'.role = r.role := by
  unfold promoteOne
  split
  · cases minWaitlisted ms with
    | none => exact ⟨r, h, rfl⟩
    | some w =>
      dsimp only
      refine ⟨if r.user == w.user then { r with wl := none, upd := t } else r, ?_, ?_⟩
      · rw [findMember_map_user_preserving
            (fun x => if x.user == w.user then { x with wl := none, upd := t } else x)
            (fun x => by dsimp only; split <;> rfl) u ms, h]
        rfl
      · split <;> rfl
  · exact ⟨r, h, rfl⟩

/-- After a write-back of user `u`'s row followed by the promotion sweep,
looking `u` up finds a row carrying the written role. -/
theorem exists_role_after_promote (g : Int) (t : Nat) {ms : List Member} {u : String}
    {m nm : Member} {rv : Role}
    (hm : findMember ms u = some m) (hnm : nm.user = u) (hrv : nm.role = rv) :
    ∃ r', findMember (promoteOne g (replaceUser ms u nm) t) u = some r' ∧ r'.role = rv := by
  obtain ⟨r', h1, h2⟩ := findMember_promoteOne (findMember_replaceUser hm hnm)
  exact ⟨r', h1, h2.trans hrv⟩

/-- C5: the claim says an accepted RSVP update never changes a planner's
role.  In fact `update_rsvp` **and** `respond_to_invitation` assign the role
purely from the requested status — `going ⇒ guest`, everything else ⇒
`viewer` (for `update_rsvp`, `pending` leaves the role alone) — for every
member including planners, while the `/respond` route (`respond_to_invite`)
preserves every member's role.  This is the amended statement. -/
theorem claim_C5 (s : TripState) (u : String) (st : UStatus) (m : Member)
    (hm : findMember s.members u = some m) :
    (∃ s' m', update_rsvp s u st = .ok s' ∧ findMember s'.members u = some m' ∧
       m'.role = (match st with
                  | .going => Role.guest
                  | .maybe => Role.viewer
                  | .not_going => Role.viewer
                  | .pending => m.role)) ∧
    (∀ (resp : Rsvp) (s2 : TripState), respond_to_invite s u resp = .ok s2 →
       rolePreserved s.members s2.members) ∧
    (∀ (ist : IStatus) (s3 : TripState), respond_to_invitation s u ist = .ok s3 →
       ∃ m', findMember s3.members u = some m' ∧
         m'.role = (if ist = .going then Role.guest else Role.viewer)) := by
  have hmu : m.user = u := (findMember_mem hm).2
  refine ⟨?_, ?_, ?_⟩
  · unfold update_rsvp
    rw [hm]
    exact ⟨_, _, rfl, findMember_replaceUser hm hmu, rfl⟩
  · intro resp s2 h2
    unfold respond_to_invite at h2
    split at h2
    · exact Except.noConfusion h2
    · rw [hm] at h2
      simp only [Except.ok.injEq] at h2
      have hbase : rolePreserved s.members
          (replaceUser s.members u { m with rsvp := resp, upd := if resp = m.rsvp then m.upd else s.clock }) :=
        rolePreserved_replaceUser hm rfl rfl
      have hstep2 : ∀ nm : Member, nm.user = m.user → nm.role = m.role →
          rolePreserved s.members
            (replaceUser (replaceUser s.members u { m with rsvp := resp, upd := if resp = m.rsvp then m.upd else s.clock }) u nm) := by
        intro nm hu hr
        exact rolePreserved_trans hbase
          (rolePreserved_replaceUser
            (m := { m with rsvp := resp, upd := if resp = m.rsvp then m.upd else s.clock })
            (findMember_replaceUser hm hmu) hu hr)
      subst h2
      show rolePreserved s.members (TripState.mk _ _ _).members
      simp only
      cases resp with
      | pending =>
        rename_i hpend
        exact absurd rfl hpend
      | going =>
        rw [if_neg (by simp : ¬(Rsvp.going = .no ∧ limitTruthy s.guestLimit))]
        by_cases htr : limitTruthy s.guestLimit = true
        · rw [if_pos (⟨rfl, htr⟩ : Rsvp.going = .going ∧ limitTruthy s.guestLimit)]
          by_cases hover : s.guestLimit.getD 0 <
              (goingCount (replaceUser s.members u { m with rsvp := .going, upd := if Rsvp.going = m.rsvp then m.upd else s.clock }) : Int)
          · rw [if_pos hover]
            exact hstep2 _ rfl rfl
          · rw [if_neg hover]
            exact hbase
        · rw [if_neg (fun hc => absurd hc.2 htr),
              if_neg (by simp : ¬(Rsvp.going ≠ Rsvp.going))]
          exact hbase
      | maybe =>
        rw [if_neg (by simp : ¬(Rsvp.maybe = .no ∧ limitTruthy s.guestLimit)),
            if_neg (by simp : ¬(Rsvp.maybe = .going ∧ limitTruthy s.guestLimit)),
            if_pos (by simp : Rsvp.maybe ≠ Rsvp.going)]
        exact hstep2 _ rfl rfl
      | no =>
        rw [if_neg (by simp : ¬(Rsvp.no = .going ∧ limitTruthy s.guestLimit)),
            if_pos (by simp : Rsvp.no ≠ Rsvp.going)]
        by_cases htr : limitTruthy s.guestLimit = true
        · rw [if_pos (⟨rfl, htr⟩ : Rsvp.no = .no ∧ limitTruthy s.guestLimit)]
          refine rolePreserved_trans ?_ (rolePreserved_promoteOne _ _ _)
          exact hstep2 _ rfl rfl
        · rw [if_neg (fun hc => absurd hc.2 htr)]
          exact hstep2 _ rfl rfl
  · intro ist s3 h3
    simp only [respond_to_invitation, invitationCore, invitationBase, hm,
               Except.ok.injEq] at h3
    subst h3
    cases ist with
    | going =>
      rw [if_neg (by simp : ¬(IStatus.going = .not_going ∧ limitTruthy s.guestLimit))]
      exact ⟨_, findMember_replaceUser hm hmu, rfl⟩
    | maybe =>
      rw [if_neg (by simp : ¬(IStatus.maybe = .not_going ∧ limitTruthy s.guestLimit))]
      exact ⟨_, findMember_replaceUser hm hmu, rfl⟩
    | not_going =>
      by_cases htr : limitTruthy s.guestLimit = true
      · rw [if_pos (⟨rfl, htr⟩ : IStatus.not_going = .not_going ∧ limitTruthy s.guestLimit)]
        exact exists_role_after_promote _ _ hm hmu rfl
      · rw [if_neg (fun hc => absurd hc.2 htr)]
        exact ⟨_, findMember_replaceUser hm hmu, rfl⟩

/-- C5 witness: a planner who RSVPs `maybe` through `update_rsvp` ends with
role `viewer` — instantiating the theorem at a one-member trip whose single
member is the planner-creator (with the `/respond` preservation and the
`respond_to_invitation` downgrade instantiated alongside). -/
theorem claim_C5_witness :
    (∃ s' m', update_rsvp (init_trip "a" none) "a" UStatus.maybe = .ok s' ∧
       findMember s'.members "a" = some m' ∧ m'.role = Role.viewer) ∧
    (∀ (resp : Rsvp) (s2 : TripState),
       respond_to_invite (init_trip "a" none) "a" resp = .ok s2 →
       rolePreserved (init_trip "a" none).members s2.members) ∧
    (∀ (ist : IStatus) (s3 : TripState),
       respond_to_invitation (init_trip "a" none) "a" ist = .ok s3 →
       ∃ m', findMember s3.members "a" = some m' ∧
         m'.role = (if ist = .going then Role.guest else Role.viewer)) :=
  claim_C5 (init_trip "a" none) "a" UStatus.maybe ⟨"a", .planner, .going, none, 0⟩ (by decide)

/-- C5 counterexample: the trip creator (role `planner`) RSVPs `maybe`
through `update_rsvp`; the stored role afterwards is `viewer`, not
`planner`, refuting "the membership's role after the operation is still
'planner'". -/
theorem claim_C5_cex :
    update_rsvp (init_trip "a" none) "a" UStatus.maybe =
      .ok ⟨none, [⟨"a", .viewer, .maybe, none, 1⟩], 3⟩ ∧
    Role.viewer ≠ Role.planner :=
  ⟨rfl, by decide⟩

end TripSync


namespace TripSync

/-! ## Claim C6 — capacity re-evaluation of `update_rsvp`

`rsvp.py` lines 250–275.  The guard in the source is `if status == 'going'
and trip.guest_limit:` — Python truthiness, so a stored `guest_limit` of 0
skips the whole re-evaluation even though it is non-null. -/

/-- C6 (amended): for an `update_rsvp` call with new status `going` on a trip
whose `guest_limit` is non-null **and non-zero** (the source tests Python
truthiness, not nullness), with `occupied` the count of the trip's going
members excluding the updated row: if `occupied + 1 > guest_limit` the
member is stored with `waitlist_position = max(existing positions, 0) + 1`
and `rsvp_status` still `going`; otherwise with `waitlist_position = null`
(`goingWriteBack` is exactly that row). -/
theorem claim_C6 (s : TripState) (u : String) (m : Member) (g : Int)
    (hm : findMember s.members u = some m) (hg : s.guestLimit = some g) (hgz : g ≠ 0) :
    update_rsvp s u .going =
      .ok ⟨s.guestLimit, replaceUser s.members u (goingWriteBack s u m g), s.clock + 2⟩ ∧
    (∀ s', update_rsvp s u .going = .ok s' →
      findMember s'.members u = some (goingWriteBack s u m g)) := by
  have hb : (g != 0) = true := by simpa using hgz
  have heq : update_rsvp s u .going =
      .ok ⟨s.guestLimit, replaceUser s.members u (goingWriteBack s u m g), s.clock + 2⟩ := by
    simp only [update_rsvp, hm, hg, limitTruthy, hb, Option.getD_some, UStatus.toRsvp,
      goingWriteBack]
    simp
  refine ⟨heq, ?_⟩
  intro s' h
  rw [heq] at h
  injection h with h
  subst h
  exact findMember_replaceUser hm (findMember_mem hm).2

/-- C6 witness, Scenario A: `guest_limit = 1`, creator `a` already going,
member `b` requests `going` — `b` is stored with `waitlist_position = 1`
and `rsvp_status` still `going`. -/
theorem claim_C6_witness :
    update_rsvp ⟨some 1, [⟨"a", .planner, .going, none, 0⟩, ⟨"b", .viewer, .maybe, none, 1⟩], 2⟩
        "b" .going =
      .ok ⟨some 1, [⟨"a", .planner, .going, none, 0⟩, ⟨"b", .guest, .going, some 1, 2⟩], 4⟩ :=
  (claim_C6 ⟨some 1, [⟨"a", .planner, .going, none, 0⟩, ⟨"b", .viewer, .maybe, none, 1⟩], 2⟩
    "b" ⟨"b", .viewer, .maybe, none, 1⟩ 1 (by decide) rfl (by decide)).1

/-- C6 counterexample: on a trip with `guest_limit = 0` — non-null, so the
claim as stated applies, and `occupied + 1 = 1 > 0 = guest_limit` — the
member who sets `going` is stored with `waitlist_position = null` and not
the claimed `max(existing, 0) + 1 = 1`: the source's truthiness guard skips
the capacity logic entirely. -/
theorem claim_C6_cex :
    update_rsvp ⟨some 0, [⟨"a", .planner, .going, none, 0⟩, ⟨"b", .viewer, .maybe, none, 1⟩], 2⟩
        "b" .going = .ok
      ⟨some 0, [⟨"a", .planner, .going, none, 0⟩, ⟨"b", .guest, .going, none, 2⟩], 4⟩ ∧
    (0 : Int) <
      (occupiedExcl [⟨"a", .planner, .going, none, 0⟩, ⟨"b", .viewer, .maybe, none, 1⟩] "b" : Int) + 1 ∧
    some (maxWl [⟨"a", .planner, .going, none, 0⟩, ⟨"b", .viewer, .maybe, none, 1⟩] + 1) =
      (some 1 : Option Int) ∧
    (none : Option Int) ≠ some 1 :=
  ⟨rfl, by decide, by decide, by decide⟩

end TripSync

namespace TripSync

/-! ## Claim C7 — share-sum validation of `create_expense`

The spec promises **exact decimal comparison** of the share sum against
`amount`, rejecting exactly when they differ.  The source compares
**binary64 floats**: `total_share = sum(p.get('share', 0) for p in
participants)` and `if total_share != float(data['amount'])`
(`expenses.py` lines 83–85).  JSON shares 0.10 and 0.20 sum exactly to an
amount of 0.30 in the decimal domain, but their binary64 sum is
0.30000000000000004 ≠ 0.3, so the handler rejects a split the spec says
must be accepted: the claimed "exactly when" equivalence is false on the
program.  The lemmas below evaluate the binary64 model on that input. -/

theorem bitLen_one : bitLen 1 = 1 := by decide

theorem bitLen_three : bitLen 3 = 2 := by decide

theorem bitLen_five : bitLen 5 = 3 := by decide

theorem bitLen_ten : bitLen 10 = 4 := by decide

theorem bitLen_n52 : bitLen 3602879701896397 = 52 := by decide

theorem bitLen_n54 : bitLen 10808639105689191 = 54 := by decide

theorem bitLen_p55 : bitLen 36028797018963968 = 56 := by decide

theorem bitLen_p54 : bitLen 18014398509481984 = 55 := by decide

set_option maxRecDepth 4000 in
/-- `float('0.1')`: 1/10 rounds to 3602879701896397 / 2^55. -/
theorem fl64_tenth :
    fl64 (1/10) = (3602879701896397 : ℚ) / 36028797018963968 := by
  norm_num [fl64, sig53, adjExp2, pow2, roundHalfEven, Int.toNat,
    bitLen_one, bitLen_ten]

set_option maxRecDepth 4000 in
/-- `float('0.2')`: 1/5 rounds to 3602879701896397 / 2^54. -/
theorem fl64_fifth :
    fl64 (1/5) = (3602879701896397 : ℚ) / 18014398509481984 := by
  norm_num [fl64, sig53, adjExp2, pow2, roundHalfEven, Int.toNat,
    bitLen_one, bitLen_five]

set_option maxRecDepth 4000 in
/-- Binary64 values are fixed points of the rounding. -/
theorem fl64_idem_tenth :
    fl64 ((3602879701896397 : ℚ) / 36028797018963968) =
      (3602879701896397 : ℚ) / 36028797018963968 := by
  norm_num [fl64, sig53, adjExp2, pow2, roundHalfEven, Int.toNat,
    bitLen_n52, bitLen_p55]

set_option maxRecDepth 4000 in
/-- The binary64 addition `0.1 + 0.2`: the exact sum 10808639105689191 / 2^55
lies exactly halfway between two representables and rounds (ties to even) up
to 1351079888211149 / 2^52 = 0.30000000000000004. -/
theorem fl64_sum_step :
    fl64 ((3602879701896397 : ℚ) / 36028797018963968 +
        (3602879701896397 : ℚ) / 18014398509481984) =
      (1351079888211149 : ℚ) / 4503599627370496 := by
  norm_num [fl64, sig53, adjExp2, pow2, roundHalfEven, Int.toNat,
    bitLen_n54, bitLen_p55]

set_option maxRecDepth 4000 in
/-- `float('0.3')`: 3/10 rounds DOWN to 5404319552844595 / 2^54 — distinct
from the binary64 sum of 0.1 and 0.2. -/
theorem fl64_three_tenths :
    fl64 (3/10) = (5404319552844595 : ℚ) / 18014398509481984 := by
  norm_num [fl64, sig53, adjExp2, pow2, roundHalfEven, Int.toNat,
    bitLen_three, bitLen_ten]

/-- `total_share` for shares 0.10 and 0.20 as Python computes it. -/
theorem floatSum_tenth_fifth :
    floatSum [1/10, 1/5] = (1351079888211149 : ℚ) / 4503599627370496 := by
  simp only [floatSum, List.foldl, zero_add, fl64_tenth, fl64_fifth,
    fl64_idem_tenth, fl64_sum_step]

/-- The share-sum comparison of the source misfires on 0.1 + 0.2 vs 0.3. -/
theorem floatSum_ne_three_tenths : floatSum [1/10, 1/5] ≠ fl64 (3/10) := by
  rw [floatSum_tenth_fifth, fl64_three_tenths]
  norm_num

/-- C7 (code bug): shares 0.10 and 0.20 sum **exactly** to the amount 0.30
under exact decimal comparison (first conjunct), so per the claim the call
must not be rejected for a share-sum mismatch — yet `create_expense` as the
source computes the check (binary64 sums, `create_expense_src`) rejects
exactly this call with the validation error (second conjunct), because
binary64 `0.1 + 0.2` is 0.30000000000000004 ≠ 0.3. -/
theorem claim_C7 :
    pinSum [⟨"u1", 1/10, false⟩, ⟨"u2", 1/5, false⟩] = (3/10 : ℚ) ∧
    create_expense_src ["u1", "u2"] "u1" ⟨[], 0⟩ (3/10) "USD"
      [⟨"u1", 1/10, false⟩, ⟨"u2", 1/5, false⟩] =
      .error "Sum of participant shares must equal the total amount" := by
  constructor
  · norm_num [pinSum]
  · have hmap : ([⟨"u1", 1/10, false⟩, ⟨"u2", 1/5, false⟩] : List PIn).map
        (fun p => p.share) = [1/10, 1/5] := rfl
    simp [create_expense_src, hmap]
    rw [(by norm_num : ((10 : ℚ))⁻¹ = 1/10), (by norm_num : ((5 : ℚ))⁻¹ = 1/5)]
    exact floatSum_ne_three_tenths

/-! ## Claim C10 — even split with zero going members

`expenses.py` lines 60–80: `if not participants:` selects the even split,
whose loop `for member in trip_members:` runs over the going members only;
with none, `total_members = 0` fails the `if total_members > 0:` guard, no
participant rows are created (none for the payer either), and the handler
still commits and returns 201. -/

/-- C10: `create_expense` without a participants list on a trip with zero
going members succeeds and persists the expense with an empty participant
list. -/
theorem claim_C10 (going : List String) (payer : String) (st : EState) (amount : ℚ)
    (currency : String) (hgo : going = []) :
    create_expense going payer st amount currency [] =
      .ok (⟨st.expenses ++ [⟨st.nextId, payer, amount, currency, []⟩], st.nextId + 1⟩,
           ⟨st.nextId, payer, amount, currency, []⟩) := by
  subst hgo
  simp [create_expense]

/-- C10 witness: at the empty state, with no going members, a 100.00 expense
is created with zero participant rows. -/
theorem claim_C10_witness :
    create_expense [] "u1" ⟨[], 0⟩ 100 "USD" [] =
      .ok (⟨[⟨0, "u1", 100, "USD", []⟩], 1⟩, ⟨0, "u1", 100, "USD", []⟩) :=
  claim_C10 [] "u1" ⟨[], 0⟩ 100 "USD" rfl

end TripSync

namespace TripSync

/-! ## Claim C2 — the split-sum "invariant"

`expenses.py` line 71: `share_amount = Decimal(data['amount']) / total_members`
is decimal division at 28 significant digits, so for amounts not exactly
divisible the persisted shares do **not** sum back to the amount; and with
zero going members no rows are persisted at all (claim C10).  All writes
with an explicit participants list do preserve exact equality. -/

theorem splitInvariant_even (going : List String) (payer : String) (amount : ℚ)
    (currency : String) (id : ℕ) :
    splitInvariant ⟨id, payer, amount, currency,
      if 0 < going.length then
        going.map (fun uid => ⟨uid, div28 amount going.length, uid == payer⟩)
      else []⟩ := by
  right
  split
  · simp [List.map_map, Function.comp_def]
  · simp

theorem splitInvariant_markPaid (x : Expense) (uid : String) (h : splitInvariant x) :
    splitInvariant { x with participants := x.participants.map (fun p =>
      if p.user == uid then { p with paid := true } else p) } := by
  have hpt : ∀ p : Participant,
      (if p.user == uid then { p with paid := true } else p).share = p.share := by
    intro p
    by_cases hc : (p.user == uid) = true
    · rw [if_pos hc]
    · rw [if_neg hc]
  have hshares : (x.participants.map (fun p =>
      if p.user == uid then { p with paid := true } else p)).map (·.share) =
      x.participants.map (·.share) := by
    rw [List.map_map]
    exact List.map_congr_left (fun p _ => hpt p)
  rcases h with h | h
  · left
    simp only [shareSum] at h ⊢
    rw [hshares]
    exact h
  · right
    rw [hshares, List.length_map]
    exact h

/-- C2 (amended): in every state reachable through the public expense
operations, every persisted expense either satisfies
`sum(share_amount) == amount` exactly, or came from the even-split creation
path, where the shares are `n` copies of the 28-significant-digit decimal
quotient `amount / n` (`n` = going-member count at creation; `n = 0` leaves
no participant rows) — exact equality then fails whenever that division is
inexact or `n = 0` with a non-zero amount. -/
theorem claim_C2 (going : List String) (st : EState) (h : EReachable going st) :
    ∀ e ∈ st.expenses, splitInvariant e := by
  induction h with
  | init => intro e he; exact absurd he (List.not_mem_nil e)
  | @create st st' e payer amount currency parts hr hok ih =>
    intro e' he'
    unfold create_expense at hok
    split at hok
    · simp only [Except.ok.injEq, Prod.mk.injEq] at hok
      obtain ⟨h1, _⟩ := hok
      subst h1
      simp only [List.mem_append, List.mem_singleton] at he'
      rcases he' with he' | he'
      · exact ih e' he'
      · subst he'
        exact splitInvariant_even going payer amount currency st.nextId
    · split at hok
      · exact Except.noConfusion hok
      · rename_i hsum
        simp only [Except.ok.injEq, Prod.mk.injEq] at hok
        obtain ⟨h1, _⟩ := hok
        subst h1
        simp only [List.mem_append, List.mem_singleton] at he'
        rcases he' with he' | he'
        · exact ih e' he'
        · subst he'
          left
          have : pinSum parts = amount := by
            by_contra hc
            exact hsum hc
          simp only [shareSum, List.map_map]
          simpa [pinSum, Function.comp_def, PIn.toParticipant] using this
  | @update st st' eid patch hr hok ih =>
    intro e' he'
    unfold update_expense at hok
    split at hok
    · exact Except.noConfusion hok
    · rename_i e0 hfind
      split at hok
      · exact Except.noConfusion hok
      · split at hok
        · injection hok with hok
          subst hok
          exact ih e' he'
        · rename_i ps hps
          split at hok
          · exact Except.noConfusion hok
          · rename_i hsum
            injection hok with hok
            subst hok
            simp only [List.mem_map] at he'
            rcases he' with ⟨x, hx, hxe⟩
            by_cases hid : (x.id == eid) = true
            · rw [if_pos hid] at hxe
              subst hxe
              left
              have hps2 : pinSum ps = patch.amount.getD e0.amount := by
                by_contra hc
                exact hsum hc
              simp only [shareSum, List.map_map]
              simpa [pinSum, Function.comp_def, PIn.toParticipant] using hps2
            · rw [if_neg hid] at hxe
              subst hxe
              exact ih x hx
  | @delete st st' eid hr hok ih =>
    intro e' he'
    unfold delete_expense at hok
    split at hok
    · exact Except.noConfusion hok
    · injection hok with hok
      subst hok
      exact ih e' ((List.eraseP_sublist st.expenses).subset he')
  | @mark st st' eid uid hr hok ih =>
    intro e' he'
    unfold mark_participant_paid at hok
    split at hok
    · exact Except.noConfusion hok
    · split at hok
      · exact Except.noConfusion hok
      · injection hok with hok
        subst hok
        simp only [List.mem_map] at he'
        rcases he' with ⟨x, hx, hxe⟩
        by_cases hid : (x.id == eid) = true
        · rw [if_pos hid] at hxe
          subst hxe
          exact splitInvariant_markPaid x uid (ih x hx)
        · rw [if_neg hid] at hxe
          subst hxe
          exact ih x hx

set_option maxRecDepth 4000 in
theorem div28_100_3 :
    div28 100 3 = (3333333333333333333333333333 : ℚ) / 100000000000000000000000000 := by
  norm_num [div28, sig28, adjExp, pow10, digitLen, digitLenAux, roundHalfEven]

set_option maxRecDepth 4000 in
theorem div28_100_2 : div28 100 2 = 50 := by
  norm_num [div28, sig28, adjExp, pow10, digitLen, digitLenAux, roundHalfEven]

/-- C2 counterexample: the state holding the even split of 100.00 among 3
going members is reachable (one `create_expense` without participants from
the empty state), and its single expense's shares — three copies of
`Decimal(100)/3` — sum to 99.99999999999999999999999999, not 100.00:
exact decimal equality fails. -/
theorem claim_C2_cex :
    EReachable ["u1", "u2", "u3"] ⟨[expense100by3], 1⟩ ∧
    expense100by3 ∈ [expense100by3] ∧
    shareSum expense100by3 ≠ expense100by3.amount :=
  ⟨EReachable.create "u1" 100 "USD" [] EReachable.init rfl,
   List.mem_singleton_self _,
   by
    have h3 : shareSum expense100by3 = 3 * div28 100 3 := by
      simp [shareSum, expense100by3]
      ring
    have ha : expense100by3.amount = 100 := rfl
    rw [h3, ha, div28_100_3]
    norm_num⟩

/-- C2 witness (Scenario C): the state holding the even split of 100.00
among 2 going members is reachable, and the theorem instantiated there
yields the invariant for its expense — whose two shares of
`Decimal(100)/2 = 50.00` do sum exactly. -/
theorem claim_C2_witness :
    splitInvariant expense100by2 :=
  claim_C2 ["u1", "u2"] ⟨[expense100by2], 1⟩
    (EReachable.create "u1" 100 "USD" [] EReachable.init rfl)
    expense100by2 (List.mem_singleton_self _)

end TripSync

namespace TripSync

/-! ## Claim C8 — the `users` list returned by the summary

`expenses.py` lines 244–246 compute and store `net = paid - owed` for every
member ("Calculate net balance for each user"), but the settlement loop at
lines 258–277 then decrements `creditor['net']` on the **same dict objects**
held by `user_balances`, so the response's `users` entries for creditors no
longer satisfy `net = paid - owed` whenever a settlement was recorded
(debtors keep their original `net`, making the output inconsistent). -/

theorem c8_balances :
    balances ["a", "b"] [⟨0, "a", 10, "USD", [⟨"b", 10, false⟩]⟩] = [c8balA, c8balB] := by
  norm_num [balances, balanceFor, c8balA, c8balB, List.filter,
    show ("b" == "a") = false from rfl, show ("a" == "b") = false from rfl,
    show ("a" == "a") = true from rfl, show ("b" == "b") = true from rfl]

theorem c8_creditors : List.filter (fun b => decide (0 < b.net)) [c8balA, c8balB] = [c8balA] := by
  norm_num [List.filter, c8balA, c8balB]

theorem c8_debtors : List.filter (fun b => decide (b.net < 0)) [c8balA, c8balB] = [c8balB] := by
  norm_num [List.filter, c8balA, c8balB]

theorem c8_walk : walk "b" 10 [c8balA] = ([⟨"b", "a", 10⟩], [⟨"a", 10, 0, 0⟩]) := by
  norm_num [walk, c8balA, min_self]

theorem c8_settle : settleDebtors [c8balB] [c8balA] = ([⟨"b", "a", 10⟩], [⟨"a", 10, 0, 0⟩]) := by
  have hn : -c8balB.net = 10 := by norm_num [c8balB]
  have hu : c8balB.user = "b" := rfl
  rw [settleDebtors, hu, hn, c8_walk]
  rfl

theorem c8_round : roundTo2 10 = 10 := by
  norm_num [roundTo2, roundHalfEven]

set_option maxRecDepth 4000 in
/-- Full evaluation of the summary endpoint at the two-member, one-expense
state (`a` paid 10.00, all of it owed by `b`). -/
theorem summary_ab_eval :
    get_expense_summary ["a", "b"] [⟨0, "a", 10, "USD", [⟨"b", 10, false⟩]⟩] =
      { total_expenses := 10
        users := [⟨"a", 10, 0, 0⟩, ⟨"b", 0, 10, -10⟩]
        settlements := [⟨"b", "a", 10⟩]
        expense_count := 1
        currency := "USD" } := by
  have hs1 : List.insertionSort netGe [c8balA] = [c8balA] := rfl
  have hs2 : List.insertionSort netLe [c8balB] = [c8balB] := rfl
  simp only [get_expense_summary, c8_balances, c8_creditors, c8_debtors, hs1, hs2, c8_settle]
  norm_num [c8_round, c8balA, c8balB, roundSettle,
    show ("b" == "a") = false from rfl, show ("a" == "b") = false from rfl,
    show ("a" == "a") = true from rfl, show ("b" == "b") = true from rfl,
    show "a" ≠ "b" from by decide, show "b" ≠ "a" from by decide]

/-- C8: at the failing input — members `a`, `b`; one 10.00 expense created
by `a` whose single participant row is `b`'s share of 10.00 — the summary
returns a non-empty settlements list and a `users` entry for `a` with
`paid = 10`, `owed = 0` but `net = 0`: the aliased creditor dict was zeroed
by the settlement loop, so `net ≠ paid - owed` in the response, contradicting
the spec's `net = paid - owed` (the debtor entry `b` keeps `net = -10`). -/
theorem claim_C8 :
    (get_expense_summary ["a", "b"] [⟨0, "a", 10, "USD", [⟨"b", 10, false⟩]⟩]).users =
      [⟨"a", 10, 0, 0⟩, ⟨"b", 0, 10, -10⟩] ∧
    (get_expense_summary ["a", "b"] [⟨0, "a", 10, "USD", [⟨"b", 10, false⟩]⟩]).settlements =
      [⟨"b", "a", 10⟩] ∧
    (10 : ℚ) - 0 ≠ 0 := by
  rw [summary_ab_eval]
  refine ⟨rfl, rfl, by norm_num⟩

end TripSync


namespace TripSync

/-! ## Claim C1 — lemmas about the greedy settlement walk -/

theorem netTotal_cons (c : UserBal) (cs : List UserBal) :
    netTotal (c :: cs) = c.net + netTotal cs := by
  simp [netTotal]

theorem netTotal_nonneg {cs : List UserBal} (h : ∀ c ∈ cs, 0 ≤ c.net) :
    0 ≤ netTotal cs := by
  refine List.sum_nonneg ?_
  intro x hx
  rcases List.mem_map.mp hx with ⟨c, hc, hcx⟩
  exact hcx ▸ h c hc

theorem amtTotal_cons (t : Settlement) (ss : List Settlement) :
    amtTotal (t :: ss) = t.amount + amtTotal ss := by
  simp [amtTotal]

theorem amtTotal_append (s1 s2 : List Settlement) :
    amtTotal (s1 ++ s2) = amtTotal s1 + amtTotal s2 := by
  simp [amtTotal]

/-- The walk leaves the creditor users (and their order) unchanged. -/
theorem walk_users (u : String) (d : ℚ) (cs : List UserBal) :
    (walk u d cs).2.map (·.user) = cs.map (·.user) := by
  induction cs generalizing d with
  | nil => rfl
  | cons c t ih =>
    unfold walk
    split
    · simpa using ih d
    · split
      · split
        · simp
        · simpa using ih (d - min d c.net)
      · simpa using ih d

/-- Conservation: whatever the walk records is taken from the creditors. -/
theorem walk_netTotal (u : String) (d : ℚ) (cs : List UserBal) :
    netTotal (walk u d cs).2 = netTotal cs - amtTotal (walk u d cs).1 := by
  induction cs generalizing d with
  | nil => simp [walk, netTotal, amtTotal]
  | cons c t ih =>
    unfold walk
    split
    · simp only [netTotal_cons, ih d]
      ring
    · split
      · split
        · simp [netTotal_cons, amtTotal]
          ring
        · simp only [netTotal_cons, amtTotal_cons, ih (d - min d c.net)]
          ring
      · simp only [netTotal_cons, ih d]
        ring

/-- Creditor nets stay nonnegative along the walk. -/
theorem walk_nonneg {cs : List UserBal} (u : String) (d : ℚ)
    (hcs : ∀ c ∈ cs, 0 ≤ c.net) :
    ∀ x ∈ (walk u d cs).2, 0 ≤ x.net := by
  induction cs generalizing d with
  | nil => intro x hx; simp [walk] at hx
  | cons c t ih =>
    have hc : 0 ≤ c.net := hcs c (List.mem_cons_self c t)
    have ht : ∀ x ∈ t, 0 ≤ x.net := fun x hx => hcs x (List.mem_cons_of_mem c hx)
    intro x hx
    unfold walk at hx
    split at hx
    · simp only [List.mem_cons] at hx
      rcases hx with hx | hx
      · exact hx ▸ hc
      · exact ih d ht x hx
    · split at hx
      · split at hx
        · simp only [List.mem_cons] at hx
          rcases hx with hx | hx
          · subst hx
            simp only
            have : min d c.net ≤ c.net := min_le_right d c.net
            linarith
          · exact ht x hx
        · simp only [List.mem_cons] at hx
          rcases hx with hx | hx
          · subst hx
            simp only
            have : min d c.net ≤ c.net := min_le_right d c.net
            linarith
          · exact ih (d - min d c.net) ht x hx
      · simp only [List.mem_cons] at hx
        rcases hx with hx | hx
        · exact hx ▸ hc
        · exact ih d ht x hx

/-- Every settlement the walk records is paid by the debtor `u`, to one of
the creditors. -/
theorem walk_records (u : String) (d : ℚ) (cs : List UserBal) :
    ∀ t ∈ (walk u d cs).1, t.fromUser = u ∧ t.toUser ∈ cs.map (·.user) := by
  induction cs generalizing d with
  | nil => intro t ht; simp [walk] at ht
  | cons c t ih =>
    intro x hx
    unfold walk at hx
    split at hx
    · rcases ih d x hx with ⟨h1, h2⟩
      exact ⟨h1, by simp [h2]⟩
    · split at hx
      · split at hx
        · simp only [List.mem_singleton] at hx
          subst hx
          exact ⟨rfl, by simp⟩
        · simp only [List.mem_cons] at hx
          rcases hx with hx | hx
          · subst hx
            exact ⟨rfl, by simp⟩
          · rcases ih (d - min d c.net) x hx with ⟨h1, h2⟩
            exact ⟨h1, by simp [h2]⟩
      · rcases ih d x hx with ⟨h1, h2⟩
        exact ⟨h1, by simp [h2]⟩

end TripSync

namespace TripSync

theorem netSumOf_cons (v : String) (c : UserBal) (cs : List UserBal) :
    netSumOf v (c :: cs) = (if c.user = v then c.net else 0) + netSumOf v cs := by
  simp only [netSumOf, List.filter_cons]
  by_cases h : c.user = v
  · simp [h]
  · simp [h]

theorem recvBy_cons (v : String) (t : Settlement) (ss : List Settlement) :
    recvBy v (t :: ss) = (if t.toUser = v then t.amount else 0) + recvBy v ss := by
  simp only [recvBy, List.filter_cons]
  by_cases h : t.toUser = v
  · simp [h]
  · simp [h]

theorem recvBy_append (v : String) (s1 s2 : List Settlement) :
    recvBy v (s1 ++ s2) = recvBy v s1 + recvBy v s2 := by
  simp [recvBy, List.filter_append]

theorem sentBy_cons (v : String) (t : Settlement) (ss : List Settlement) :
    sentBy v (t :: ss) = (if t.fromUser = v then t.amount else 0) + sentBy v ss := by
  simp only [sentBy, List.filter_cons]
  by_cases h : t.fromUser = v
  · simp [h]
  · simp [h]

theorem sentBy_append (v : String) (s1 s2 : List Settlement) :
    sentBy v (s1 ++ s2) = sentBy v s1 + sentBy v s2 := by
  simp [sentBy, List.filter_append]

/-- Per-user accounting: what user `v`'s creditor rows lose is exactly what
the recorded settlements pay to `v`. -/
theorem walk_netSumOf (u v : String) (d : ℚ) (cs : List UserBal) :
    netSumOf v (walk u d cs).2 = netSumOf v cs - recvBy v (walk u d cs).1 := by
  induction cs generalizing d with
  | nil => simp [walk, netSumOf, recvBy]
  | cons c t ih =>
    unfold walk
    split
    · rw [netSumOf_cons, netSumOf_cons, ih d]
      ring
    · split
      · split
        · rw [netSumOf_cons, netSumOf_cons, recvBy_cons]
          by_cases hv : c.user = v
          · simp [recvBy, hv]
            ring
          · simp [recvBy, hv]
        · rw [netSumOf_cons, netSumOf_cons, recvBy_cons, ih (d - min d c.net)]
          by_cases hv : c.user = v
          · simp only [hv, eq_self_iff_true, if_true]
            ring
          · simp only [if_neg hv]
            ring
      · rw [netSumOf_cons, netSumOf_cons, ih d]
        ring

/-- The walk extracts `min(debt, total positive credit)`. -/
theorem walk_amtTotal (u : String) {cs : List UserBal} {d : ℚ} (hd : 0 ≤ d)
    (hcs : ∀ c ∈ cs, 0 ≤ c.net) :
    amtTotal (walk u d cs).1 = min d (netTotal cs) := by
  induction cs generalizing d with
  | nil =>
    simp [walk, amtTotal, netTotal, min_eq_right hd]
  | cons c t ih =>
    have hc : 0 ≤ c.net := hcs c (List.mem_cons_self c t)
    have ht : ∀ x ∈ t, 0 ≤ x.net := fun x hx => hcs x (List.mem_cons_of_mem c hx)
    have htn : 0 ≤ netTotal t := netTotal_nonneg ht
    unfold walk
    split
    · rename_i hle
      have hc0 : c.net = 0 := le_antisymm hle hc
      rw [ih hd ht, netTotal_cons, hc0, zero_add]
    · rename_i hpos
      push_neg at hpos
      split
      · split
        · rename_i hbreak
          have had : min d c.net = d := by
            rcases le_total d c.net with h | h
            · exact min_eq_left h
            · have h2 : min d c.net = c.net := min_eq_right h
              rw [h2] at hbreak
              have h3 : d = c.net := le_antisymm (by linarith) h
              rw [h2, h3]
          have hdc : d ≤ c.net := by
            rcases le_total d c.net with h | h
            · exact h
            · rw [min_eq_right h] at had
              exact le_of_eq had.symm
          rw [amtTotal_cons, had]
          have hle2 : d ≤ netTotal (c :: t) := by
            rw [netTotal_cons]
            linarith
          rw [min_eq_left hle2]
          simp [amtTotal]
        · rename_i hcont
          have hac : min d c.net = c.net := by
            rcases le_total d c.net with h | h
            · exfalso
              rw [min_eq_left h] at hcont
              exact hcont (by linarith)
            · exact min_eq_right h
          have hd' : 0 ≤ d - min d c.net := by
            by_contra hneg
            push_neg at hneg
            exact hcont (le_of_lt hneg)
          rw [amtTotal_cons, ih hd' ht, hac, netTotal_cons]
          rw [hac] at hd'
          have hsplit : c.net + min (d - c.net) (netTotal t) =
              min (c.net + (d - c.net)) (c.net + netTotal t) := (min_add_add_left c.net _ _).symm
          have harg : c.net + (d - c.net) = d := by ring
          rw [hsplit, harg]
      · rename_i hnpos
        push_neg at hnpos
        have hmin0 : 0 ≤ min d c.net := le_min hd hc
        have heq0 : min d c.net = 0 := le_antisymm hnpos hmin0
        have hd0 : d = 0 := by
          rcases le_total d c.net with h | h
          · rw [min_eq_left h] at heq0
            exact heq0
          · rw [min_eq_right h] at heq0
            linarith
        subst hd0
        rw [ih (le_refl 0) ht, netTotal_cons]
        rw [min_eq_left htn, min_eq_left (by linarith : (0:ℚ) ≤ c.net + netTotal t)]

end TripSync

namespace TripSync

/-! ## Claim C1 — lemmas about the outer debtor loop -/

theorem debtTotal_cons (dr : UserBal) (drs : List UserBal) :
    debtTotal (dr :: drs) = -dr.net + debtTotal drs := by
  simp [debtTotal]

theorem debtTotal_nonneg {drs : List UserBal} (h : ∀ dr ∈ drs, dr.net < 0) :
    0 ≤ debtTotal drs := by
  refine List.sum_nonneg ?_
  intro x hx
  rcases List.mem_map.mp hx with ⟨dr, hdr, hdx⟩
  have := h dr hdr
  rw [← hdx]
  linarith

theorem debtOfUser_cons (v : String) (dr : UserBal) (drs : List UserBal) :
    debtOfUser v (dr :: drs) =
      (if dr.user = v then -dr.net else 0) + debtOfUser v drs := by
  simp only [debtOfUser, List.filter_cons]
  by_cases h : dr.user = v
  · simp [h]
  · simp [h]

/-- A settlement list all paid by `u` is seen by `sentBy` as a block. -/
theorem sentBy_const_from {u : String} {ss : List Settlement}
    (h : ∀ t ∈ ss, t.fromUser = u) (v : String) :
    sentBy v ss = if u = v then amtTotal ss else 0 := by
  induction ss with
  | nil => simp [sentBy, amtTotal]
  | cons t ts ih =>
    have ht : t.fromUser = u := h t (List.mem_cons_self t ts)
    have hts : ∀ x ∈ ts, x.fromUser = u := fun x hx => h x (List.mem_cons_of_mem t hx)
    rw [sentBy_cons, amtTotal_cons, ih hts, ht]
    by_cases hv : u = v
    · simp [hv]
    · simp [hv]

theorem settleDebtors_users (drs cs : List UserBal) :
    (settleDebtors drs cs).2.map (·.user) = cs.map (·.user) := by
  induction drs generalizing cs with
  | nil => rfl
  | cons dr drs ih =>
    unfold settleDebtors
    rw [ih, walk_users]

theorem settleDebtors_nonneg {cs : List UserBal} (drs : List UserBal)
    (hcs : ∀ c ∈ cs, 0 ≤ c.net) :
    ∀ x ∈ (settleDebtors drs cs).2, 0 ≤ x.net := by
  induction drs generalizing cs with
  | nil => exact hcs
  | cons dr drs ih =>
    unfold settleDebtors
    exact ih (walk_nonneg dr.user (-dr.net) hcs)

theorem settleDebtors_netSumOf (v : String) (drs cs : List UserBal) :
    netSumOf v (settleDebtors drs cs).2 =
      netSumOf v cs - recvBy v (settleDebtors drs cs).1 := by
  induction drs generalizing cs with
  | nil => simp [settleDebtors, recvBy]
  | cons dr drs ih =>
    unfold settleDebtors
    rw [recvBy_append]
    simp only
    rw [ih, walk_netSumOf]
    ring

theorem settleDebtors_records (drs cs : List UserBal) :
    ∀ t ∈ (settleDebtors drs cs).1,
      t.fromUser ∈ drs.map (·.user) ∧ t.toUser ∈ cs.map (·.user) := by
  induction drs generalizing cs with
  | nil => intro t ht; simp [settleDebtors] at ht
  | cons dr drs ih =>
    intro t ht
    unfold settleDebtors at ht
    simp only [List.mem_append] at ht
    rcases ht with ht | ht
    · rcases walk_records dr.user (-dr.net) cs t ht with ⟨h1, h2⟩
      exact ⟨by simp [h1], h2⟩
    · rcases ih (walk dr.user (-dr.net) cs).2 t ht with ⟨h1, h2⟩
      rw [walk_users] at h2
      exact ⟨by simp [h1], h2⟩

/-- Full extraction under solvency: when the total debt is covered by the
total credit, every debtor's debt is settled in full, and the creditor pool
shrinks by exactly the total debt. -/
theorem settleDebtors_main {drs cs : List UserBal}
    (hdr : ∀ dr ∈ drs, dr.net < 0) (hcs : ∀ c ∈ cs, 0 ≤ c.net)
    (hle : debtTotal drs ≤ netTotal cs) :
    netTotal (settleDebtors drs cs).2 = netTotal cs - debtTotal drs ∧
    (∀ v, sentBy v (settleDebtors drs cs).1 = debtOfUser v drs) := by
  induction drs generalizing cs with
  | nil =>
    refine ⟨by simp [settleDebtors, debtTotal], fun v => ?_⟩
    simp [settleDebtors, sentBy, debtOfUser]
  | cons dr drs ih =>
    have hd0 : (0:ℚ) ≤ -dr.net := by
      have := hdr dr (List.mem_cons_self dr drs)
      linarith
    have hdrs : ∀ x ∈ drs, x.net < 0 := fun x hx => hdr x (List.mem_cons_of_mem dr hx)
    have hDrs : 0 ≤ debtTotal drs := debtTotal_nonneg hdrs
    rw [debtTotal_cons] at hle
    have hle1 : -dr.net ≤ netTotal cs := by linarith
    have hW1 : amtTotal (walk dr.user (-dr.net) cs).1 = -dr.net := by
      rw [walk_amtTotal dr.user hd0 hcs]
      exact min_eq_left hle1
    have hW2 : netTotal (walk dr.user (-dr.net) cs).2 = netTotal cs - -dr.net := by
      rw [walk_netTotal, hW1]
    have hcs' : ∀ x ∈ (walk dr.user (-dr.net) cs).2, 0 ≤ x.net :=
      walk_nonneg dr.user (-dr.net) hcs
    have hle' : debtTotal drs ≤ netTotal (walk dr.user (-dr.net) cs).2 := by
      rw [hW2]
      linarith
    obtain ⟨ihT, ihS⟩ := ih hdrs hcs' hle'
    constructor
    · show netTotal (settleDebtors drs (walk dr.user (-dr.net) cs).2).2 = _
      rw [ihT, hW2, debtTotal_cons]
      ring
    · intro v
      show sentBy v ((walk dr.user (-dr.net) cs).1 ++
        (settleDebtors drs (walk dr.user (-dr.net) cs).2).1) = _
      rw [sentBy_append, ihS v, debtOfUser_cons]
      have hfrom : ∀ t ∈ (walk dr.user (-dr.net) cs).1, t.fromUser = dr.user :=
        fun t ht => (walk_records dr.user (-dr.net) cs t ht).1
      rw [sentBy_const_from hfrom v, hW1]

end TripSync

namespace TripSync

/-! ## Claim C1 — sum bookkeeping for the balance table -/

theorem sum_map_add {α : Type} (l : List α) (f g : α → ℚ) :
    (l.map (fun x => f x + g x)).sum = (l.map f).sum + (l.map g).sum := by
  induction l with
  | nil => simp
  | cons a t ih =>
    simp only [List.map_cons, List.sum_cons, ih]
    ring

theorem sum_map_sub {α : Type} (l : List α) (f g : α → ℚ) :
    (l.map (fun x => f x - g x)).sum = (l.map f).sum - (l.map g).sum := by
  induction l with
  | nil => simp
  | cons a t ih =>
    simp only [List.map_cons, List.sum_cons, ih]
    ring

theorem sum_map_swap {α β : Type} (l1 : List α) (l2 : List β) (f : α → β → ℚ) :
    (l1.map (fun a => (l2.map (f a)).sum)).sum =
      (l2.map (fun b => (l1.map (fun a => f a b)).sum)).sum := by
  induction l1 with
  | nil => simp
  | cons a t ih =>
    simp only [List.map_cons, List.sum_cons, ih]
    rw [← sum_map_add]

theorem filter_map_sum_eq_ind {α : Type} (l : List α) (p : α → Bool) (f : α → ℚ) :
    ((l.filter p).map f).sum = (l.map (fun x => if p x = true then f x else 0)).sum := by
  induction l with
  | nil => simp
  | cons a t ih =>
    rw [List.filter_cons]
    by_cases h : p a = true
    · simp [h, ih]
    · simp [h, ih]

theorem sum_ind_member (members : List String) (hnd : members.Nodup) (c : String)
    (hc : c ∈ members) (x : ℚ) :
    (members.map (fun u => if c = u then x else 0)).sum = x := by
  induction members with
  | nil => cases hc
  | cons m t ih =>
    obtain ⟨hmt, hndt⟩ := List.nodup_cons.mp hnd
    rcases List.mem_cons.mp hc with hcm | hct
    · subst hcm
      have hz : (t.map (fun u => if c = u then x else 0)).sum = 0 := by
        refine List.sum_eq_zero ?_
        intro y hy
        rcases List.mem_map.mp hy with ⟨u, hu, hyu⟩
        have hne : ¬c = u := fun hcu => hmt (hcu ▸ hu)
        simpa [hne] using hyu.symm
      simp [hz]
    · have hcm : ¬c = m := fun hcm => hmt (hcm ▸ hct)
      simp [hcm, ih hndt hct]

/-- The total net of the balance table vanishes when every expense's shares
sum to its amount and every creator and participant is a member. -/
theorem balances_netTotal (members : List String) (expenses : List Expense)
    (hnd : members.Nodup)
    (hsum : ∀ e ∈ expenses, shareSum e = e.amount)
    (hcr : ∀ e ∈ expenses, e.creator ∈ members)
    (hpt : ∀ e ∈ expenses, ∀ p ∈ e.participants, p.user ∈ members) :
    netTotal (balances members expenses) = 0 := by
  have h1 : netTotal (balances members expenses) =
      (members.map (fun u =>
        (expenses.map (fun e => if e.creator = u then e.amount else 0)).sum -
        (expenses.map (fun e =>
          (e.participants.map (fun p => if p.user = u then p.share else 0)).sum)).sum)).sum := by
    simp only [netTotal, balances, List.map_map]
    refine congrArg List.sum (List.map_congr_left ?_)
    intro u _
    simp only [Function.comp_def, balanceFor]
    rw [filter_map_sum_eq_ind]
    have howed : (expenses.map (fun e =>
        ((e.participants.filter (fun p => p.user == u)).map (·.share)).sum)).sum =
        (expenses.map (fun e =>
          (e.participants.map (fun p => if p.user = u then p.share else 0)).sum)).sum := by
      refine congrArg List.sum (List.map_congr_left ?_)
      intro e _
      rw [filter_map_sum_eq_ind]
      simp only [beq_iff_eq]
    rw [howed]
    simp only [beq_iff_eq]
  rw [h1, sum_map_sub]
  have hpaid : (members.map (fun u =>
      (expenses.map (fun e => if e.creator = u then e.amount else 0)).sum)).sum =
      (expenses.map (·.amount)).sum := by
    rw [sum_map_swap]
    refine congrArg List.sum (List.map_congr_left ?_)
    intro e he
    exact sum_ind_member members hnd e.creator (hcr e he) e.amount
  have howed2 : (members.map (fun u =>
      (expenses.map (fun e =>
        (e.participants.map (fun p => if p.user = u then p.share else 0)).sum)).sum)).sum =
      (expenses.map (·.amount)).sum := by
    rw [sum_map_swap]
    refine congrArg List.sum (List.map_congr_left ?_)
    intro e he
    have hswap : (members.map (fun u =>
        (e.participants.map (fun p => if p.user = u then p.share else 0)).sum)).sum =
        (e.participants.map (fun p =>
          (members.map (fun u => if p.user = u then p.share else 0)).sum)).sum :=
      sum_map_swap members e.participants _
    rw [hswap]
    have hper : (e.participants.map (fun p =>
        (members.map (fun u => if p.user = u then p.share else 0)).sum)).sum =
        (e.participants.map (·.share)).sum := by
      refine congrArg List.sum (List.map_congr_left ?_)
      intro p hp
      exact sum_ind_member members hnd p.user (hpt e he p hp) p.share
    rw [hper]
    exact hsum e he
  rw [hpaid, howed2, sub_self]

end TripSync

namespace TripSync

/-! ## Claim C1 — locating one member's row in the balance table -/

theorem userSum_zero (g : UserBal → ℚ) (p : UserBal → Bool) (t : List String)
    (expenses : List Expense) (X : String) (hXt : X ∉ t) :
    (((balances t expenses).filter (fun a => a.user == X && p a)).map g).sum = 0 := by
  induction t with
  | nil => simp [balances]
  | cons m t ih =>
    have hXm : X ≠ m := fun h => hXt (h ▸ List.mem_cons_self m t)
    have hXt' : X ∉ t := fun h => hXt (List.mem_cons_of_mem m h)
    have hmX : ((balanceFor expenses m).user == X) = false := by
      simp [balanceFor]
      exact fun h => hXm h.symm
    simp only [balances, List.map_cons, List.filter_cons, hmX, Bool.false_and,
      Bool.false_eq_true, if_false]
    simpa [balances] using ih hXt'

theorem userSum_balances (g : UserBal → ℚ) (p : UserBal → Bool) (members : List String)
    (expenses : List Expense) (hnd : members.Nodup) (X : String) (hX : X ∈ members) :
    (((balances members expenses).filter (fun a => a.user == X && p a)).map g).sum =
      if p (balanceFor expenses X) = true then g (balanceFor expenses X) else 0 := by
  induction members with
  | nil => cases hX
  | cons m t ih =>
    obtain ⟨hmt, hndt⟩ := List.nodup_cons.mp hnd
    simp only [balances, List.map_cons, List.filter_cons]
    rcases List.mem_cons.mp hX with hXm | hXt
    · subst hXm
      have hself : ((balanceFor expenses X).user == X) = true := by simp [balanceFor]
      have hz := userSum_zero g p t expenses X hmt
      simp only [balances] at hz
      by_cases hp : p (balanceFor expenses X) = true
      · simp [hself, hp, hz]
      · simp only [hself, Bool.true_and]
        simp [hp, hz]
    · have hXm : X ≠ m := fun h => hmt (h ▸ hXt)
      have hmX : ((balanceFor expenses m).user == X) = false := by
        simp [balanceFor]
        exact fun h => hXm h.symm
      simp only [hmX, Bool.false_and, Bool.false_eq_true, if_false]
      simpa [balances] using ih hndt hXt

theorem netSumOf_filter_balances (p : UserBal → Bool) (members : List String)
    (expenses : List Expense) (hnd : members.Nodup) (X : String) (hX : X ∈ members) :
    netSumOf X ((balances members expenses).filter p) =
      if p (balanceFor expenses X) = true then (balanceFor expenses X).net else 0 := by
  show (((((balances members expenses).filter p)).filter (fun c => c.user == X)).map (·.net)).sum = _
  rw [List.filter_filter]
  exact userSum_balances (·.net) p members expenses hnd X hX

theorem debtOfUser_filter_balances (p : UserBal → Bool) (members : List String)
    (expenses : List Expense) (hnd : members.Nodup) (X : String) (hX : X ∈ members) :
    debtOfUser X ((balances members expenses).filter p) =
      if p (balanceFor expenses X) = true then -(balanceFor expenses X).net else 0 := by
  show (((((balances members expenses).filter p)).filter (fun c => c.user == X)).map (fun c => -c.net)).sum = _
  rw [List.filter_filter]
  exact userSum_balances (fun c => -c.net) p members expenses hnd X hX

/-! ## Claim C1 — permutation transfer and the exhausted-creditor argument -/

theorem netTotal_perm {l1 l2 : List UserBal} (h : l1.Perm l2) : netTotal l1 = netTotal l2 := by
  unfold netTotal
  exact (h.map (·.net)).sum_eq

theorem debtTotal_perm {l1 l2 : List UserBal} (h : l1.Perm l2) : debtTotal l1 = debtTotal l2 := by
  unfold debtTotal
  exact (h.map (fun c => -c.net)).sum_eq

theorem netSumOf_perm (v : String) {l1 l2 : List UserBal} (h : l1.Perm l2) :
    netSumOf v l1 = netSumOf v l2 := by
  unfold netSumOf
  exact ((h.filter (fun c => c.user == v)).map (·.net)).sum_eq

theorem debtOfUser_perm (v : String) {l1 l2 : List UserBal} (h : l1.Perm l2) :
    debtOfUser v l1 = debtOfUser v l2 := by
  unfold debtOfUser
  exact ((h.filter (fun c => c.user == v)).map (fun c => -c.net)).sum_eq

theorem debtTotal_eq_neg (l : List UserBal) : debtTotal l = -netTotal l := by
  induction l with
  | nil => simp [debtTotal, netTotal]
  | cons c t ih =>
    rw [debtTotal_cons, netTotal_cons, ih]
    ring

theorem netTotal_split (cs : List UserBal) :
    netTotal (cs.filter (fun b => decide (0 < b.net))) +
      netTotal (cs.filter (fun b => decide (b.net < 0))) = netTotal cs := by
  induction cs with
  | nil => simp [netTotal]
  | cons c t ih =>
    rw [netTotal_cons, List.filter_cons, List.filter_cons]
    rcases lt_trichotomy c.net 0 with h | h | h
    · have h1 : decide (0 < c.net) = false := by
        simp only [decide_eq_false_iff_not]
        linarith
      have h2 : decide (c.net < 0) = true := by simp [h]
      rw [h1, h2]
      simp only [Bool.false_eq_true, if_false, if_true, netTotal_cons]
      rw [← ih]
      ring
    · have h1 : decide (0 < c.net) = false := by
        simp only [decide_eq_false_iff_not]
        linarith
      have h2 : decide (c.net < 0) = false := by
        simp only [decide_eq_false_iff_not]
        linarith
      rw [h1, h2]
      simp only [Bool.false_eq_true, if_false]
      rw [← ih, h]
      ring
    · have h1 : decide (0 < c.net) = true := by simp [h]
      have h2 : decide (c.net < 0) = false := by
        simp only [decide_eq_false_iff_not]
        linarith
      rw [h1, h2]
      simp only [Bool.false_eq_true, if_false, if_true, netTotal_cons]
      rw [← ih]
      ring

theorem net_all_zero {cs : List UserBal} (hnn : ∀ c ∈ cs, 0 ≤ c.net)
    (h0 : netTotal cs = 0) : ∀ c ∈ cs, c.net = 0 := by
  induction cs with
  | nil => intro c hc; cases hc
  | cons c t ih =>
    have hc : 0 ≤ c.net := hnn c (List.mem_cons_self c t)
    have ht : ∀ x ∈ t, 0 ≤ x.net := fun x hx => hnn x (List.mem_cons_of_mem c hx)
    have htn : 0 ≤ netTotal t := netTotal_nonneg ht
    rw [netTotal_cons] at h0
    have hc0 : c.net = 0 := by linarith
    have ht0 : netTotal t = 0 := by linarith
    intro x hx
    rcases List.mem_cons.mp hx with hx | hx
    · exact hx ▸ hc0
    · exact ih ht ht0 x hx

theorem netSumOf_of_all_zero {cs : List UserBal} (h : ∀ c ∈ cs, c.net = 0) (v : String) :
    netSumOf v cs = 0 := by
  refine List.sum_eq_zero ?_
  intro x hx
  rcases List.mem_map.mp hx with ⟨c, hc, hcx⟩
  exact hcx ▸ h c (List.mem_of_mem_filter hc)

end TripSync

namespace TripSync

/-- Exact zero-sum of the greedy settlement: with a consistent, member-closed
expense table, what the settlements pay user `X` minus what they collect
from `X` is exactly `X`'s net balance. -/
theorem settlements_exact_balance (members : List String) (expenses : List Expense)
    (hnd : members.Nodup)
    (hsum : ∀ e ∈ expenses, shareSum e = e.amount)
    (hcr : ∀ e ∈ expenses, e.creator ∈ members)
    (hpt : ∀ e ∈ expenses, ∀ p ∈ e.participants, p.user ∈ members)
    (X : String) (hX : X ∈ members) :
    recvBy X (settleDebtors
        (List.insertionSort netLe ((balances members expenses).filter (fun b => b.net < 0)))
        (List.insertionSort netGe ((balances members expenses).filter (fun b => 0 < b.net)))).1 -
      sentBy X (settleDebtors
        (List.insertionSort netLe ((balances members expenses).filter (fun b => b.net < 0)))
        (List.insertionSort netGe ((balances members expenses).filter (fun b => 0 < b.net)))).1 =
      (balanceFor expenses X).net := by
  have hpermc : (List.insertionSort netGe
      ((balances members expenses).filter (fun b => 0 < b.net))).Perm
      ((balances members expenses).filter (fun b => 0 < b.net)) :=
    List.perm_insertionSort netGe _
  have hpermd : (List.insertionSort netLe
      ((balances members expenses).filter (fun b => b.net < 0))).Perm
      ((balances members expenses).filter (fun b => b.net < 0)) :=
    List.perm_insertionSort netLe _
  have hcnn : ∀ c ∈ List.insertionSort netGe
      ((balances members expenses).filter (fun b => 0 < b.net)), 0 ≤ c.net := by
    intro c hc
    have hm := hpermc.subset hc
    have := List.of_mem_filter hm
    exact le_of_lt (of_decide_eq_true this)
  have hdneg : ∀ dr ∈ List.insertionSort netLe
      ((balances members expenses).filter (fun b => b.net < 0)), dr.net < 0 := by
    intro dr hdr
    have hm := hpermd.subset hdr
    have := List.of_mem_filter hm
    exact of_decide_eq_true this
  have h0 : netTotal (balances members expenses) = 0 :=
    balances_netTotal members expenses hnd hsum hcr hpt
  have hsplit := netTotal_split (balances members expenses)
  have heq : debtTotal (List.insertionSort netLe
      ((balances members expenses).filter (fun b => b.net < 0))) =
      netTotal (List.insertionSort netGe
        ((balances members expenses).filter (fun b => 0 < b.net))) := by
    rw [debtTotal_perm hpermd, netTotal_perm hpermc, debtTotal_eq_neg]
    linarith
  obtain ⟨hfin, hsent⟩ := settleDebtors_main hdneg hcnn (le_of_eq heq)
  have hfin0 : netTotal (settleDebtors
      (List.insertionSort netLe ((balances members expenses).filter (fun b => b.net < 0)))
      (List.insertionSort netGe ((balances members expenses).filter (fun b => 0 < b.net)))).2 = 0 := by
    rw [hfin, heq]
    ring
  have hfinnn := settleDebtors_nonneg
    (List.insertionSort netLe ((balances members expenses).filter (fun b => b.net < 0))) hcnn
  have hallz := net_all_zero hfinnn hfin0
  have hrecv : recvBy X (settleDebtors
      (List.insertionSort netLe ((balances members expenses).filter (fun b => b.net < 0)))
      (List.insertionSort netGe ((balances members expenses).filter (fun b => 0 < b.net)))).1 =
      netSumOf X (List.insertionSort netGe
        ((balances members expenses).filter (fun b => 0 < b.net))) := by
    have h1 := settleDebtors_netSumOf X
      (List.insertionSort netLe ((balances members expenses).filter (fun b => b.net < 0)))
      (List.insertionSort netGe ((balances members expenses).filter (fun b => 0 < b.net)))
    have h2 := netSumOf_of_all_zero hallz X
    linarith
  have hrecv2 : netSumOf X (List.insertionSort netGe
      ((balances members expenses).filter (fun b => 0 < b.net))) =
      if decide (0 < (balanceFor expenses X).net) = true
      then (balanceFor expenses X).net else 0 := by
    rw [netSumOf_perm X hpermc]
    exact netSumOf_filter_balances _ members expenses hnd X hX
  have hsent2 : sentBy X (settleDebtors
      (List.insertionSort netLe ((balances members expenses).filter (fun b => b.net < 0)))
      (List.insertionSort netGe ((balances members expenses).filter (fun b => 0 < b.net)))).1 =
      if decide ((balanceFor expenses X).net < 0) = true
      then -(balanceFor expenses X).net else 0 := by
    rw [hsent X, debtOfUser_perm X hpermd]
    exact debtOfUser_filter_balances _ members expenses hnd X hX
  rw [hrecv, hrecv2, hsent2]
  rcases lt_trichotomy (balanceFor expenses X).net 0 with h | h | h
  · have c1 : ¬(0 < (balanceFor expenses X).net) := by linarith
    simp only [decide_eq_true_eq, c1, if_false, h, if_true]
    ring
  · simp [h]
  · have c1 : ¬((balanceFor expenses X).net < 0) := by linarith
    simp only [decide_eq_true_eq, c1, if_false, h, if_true]
    ring

end TripSync

namespace TripSync

/-! ## Claim C1 — the 2-decimal rounding bound -/

theorem roundHalfEven_close (q : ℚ) : |(roundHalfEven q : ℚ) - q| ≤ 1 / 2 := by
  have h1 : (⌊q⌋ : ℚ) ≤ q := Int.floor_le q
  have h2 : q < ⌊q⌋ + 1 := Int.lt_floor_add_one q
  unfold roundHalfEven
  split
  · rename_i hlt
    rw [abs_le]
    constructor <;> linarith
  · rename_i hge
    push_neg at hge
    split
    · rename_i hgt
      push_cast
      rw [abs_le]
      constructor <;> linarith
    · rename_i hle
      push_neg at hle
      have hmid : q - (⌊q⌋ : ℚ) = 1 / 2 := le_antisymm hle hge
      split
      · rw [abs_le]
        constructor <;> linarith
      · push_cast
        rw [abs_le]
        constructor <;> linarith

theorem roundTo2_close (q : ℚ) : |roundTo2 q - q| ≤ 1 / 200 := by
  unfold roundTo2
  have h := roundHalfEven_close (q * 100)
  have h2 : (roundHalfEven (q * 100) : ℚ) / 100 - q =
      ((roundHalfEven (q * 100) : ℚ) - q * 100) / 100 := by
    ring
  rw [h2, abs_div]
  have h3 : |(100 : ℚ)| = 100 := by norm_num
  rw [h3]
  linarith

theorem roundSettle_toUser (t : Settlement) : (roundSettle t).toUser = t.toUser := rfl

theorem roundSettle_fromUser (t : Settlement) : (roundSettle t).fromUser = t.fromUser := rfl

theorem recvBy_map_roundSettle (v : String) (ss : List Settlement) :
    |recvBy v (ss.map roundSettle) - recvBy v ss| ≤
      ((ss.filter (fun t => t.toUser == v)).length : ℚ) / 200 := by
  induction ss with
  | nil => simp [recvBy]
  | cons t ts ih =>
    rw [List.map_cons, recvBy_cons, recvBy_cons, List.filter_cons, roundSettle_toUser]
    by_cases hv : t.toUser = v
    · have hb : (t.toUser == v) = true := by simp [hv]
      simp only [hv, eq_self_iff_true, if_true, beq_self_eq_true, List.length_cons]
      have hr := roundTo2_close t.amount
      have harr : roundTo2 t.amount + recvBy v (ts.map roundSettle) - (t.amount + recvBy v ts) =
          (roundTo2 t.amount - t.amount) +
            (recvBy v (ts.map roundSettle) - recvBy v ts) := by
        ring
      have hamt : (roundSettle t).amount = roundTo2 t.amount := rfl
      rw [hamt, harr]
      have htr := abs_add (roundTo2 t.amount - t.amount)
        (recvBy v (ts.map roundSettle) - recvBy v ts)
      have hcast : (((ts.filter (fun t => t.toUser == v)).length + 1 : ℕ) : ℚ) =
          ((ts.filter (fun t => t.toUser == v)).length : ℚ) + 1 := by
        push_cast
        ring
      rw [hcast]
      linarith
    · have hb : (t.toUser == v) = false := by simp [hv]
      simp only [hv, if_false, hb, Bool.false_eq_true]
      simpa using ih

theorem sentBy_map_roundSettle (v : String) (ss : List Settlement) :
    |sentBy v (ss.map roundSettle) - sentBy v ss| ≤
      ((ss.filter (fun t => t.fromUser == v)).length : ℚ) / 200 := by
  induction ss with
  | nil => simp [sentBy]
  | cons t ts ih =>
    rw [List.map_cons, sentBy_cons, sentBy_cons, List.filter_cons, roundSettle_fromUser]
    by_cases hv : t.fromUser = v
    · have hb : (t.fromUser == v) = true := by simp [hv]
      simp only [hv, eq_self_iff_true, if_true, beq_self_eq_true, List.length_cons]
      have hr := roundTo2_close t.amount
      have harr : roundTo2 t.amount + sentBy v (ts.map roundSettle) - (t.amount + sentBy v ts) =
          (roundTo2 t.amount - t.amount) +
            (sentBy v (ts.map roundSettle) - sentBy v ts) := by
        ring
      have hamt : (roundSettle t).amount = roundTo2 t.amount := rfl
      rw [hamt, harr]
      have htr := abs_add (roundTo2 t.amount - t.amount)
        (sentBy v (ts.map roundSettle) - sentBy v ts)
      have hcast : (((ts.filter (fun t => t.fromUser == v)).length + 1 : ℕ) : ℚ) =
          ((ts.filter (fun t => t.fromUser == v)).length : ℚ) + 1 := by
        push_cast
        ring
      rw [hcast]
      linarith
    · have hb : (t.fromUser == v) = false := by simp [hv]
      simp only [hv, if_false, hb, Bool.false_eq_true]
      simpa using ih

theorem involvedCount_map_roundSettle (v : String) (ss : List Settlement) :
    involvedCount v (ss.map roundSettle) =
      (ss.filter (fun t => t.fromUser == v)).length +
      (ss.filter (fun t => t.toUser == v)).length := by
  unfold involvedCount
  have h1 : (ss.map roundSettle).filter (fun t => t.fromUser == v) =
      (ss.filter (fun t => t.fromUser == v)).map roundSettle := by
    rw [List.filter_map]
    rfl
  have h2 : (ss.map roundSettle).filter (fun t => t.toUser == v) =
      (ss.filter (fun t => t.toUser == v)).map roundSettle := by
    rw [List.filter_map]
    rfl
  rw [h1, h2, List.length_map, List.length_map]

end TripSync

namespace TripSync

/-- C1 (amended): the spec's formula has the transfer direction reversed —
what holds on the code is `sum(to = X) - sum(from = X) ≈ net(X)` — and it
additionally requires every expense creator and participant to be a trip
member (the summary silently drops rows of non-members).  Under those
hypotheses, for every member X the recorded (2-decimal-rounded) settlements
satisfy the zero-sum identity up to one half-cent per settlement naming X. -/
theorem claim_C1 (members : List String) (expenses : List Expense)
    (hnd : members.Nodup)
    (hsum : ∀ e ∈ expenses, shareSum e = e.amount)
    (hcr : ∀ e ∈ expenses, e.creator ∈ members)
    (hpt : ∀ e ∈ expenses, ∀ p ∈ e.participants, p.user ∈ members)
    (X : String) (hX : X ∈ members) :
    |recvBy X (get_expense_summary members expenses).settlements -
      sentBy X (get_expense_summary members expenses).settlements -
      (balanceFor expenses X).net| ≤
      (involvedCount X (get_expense_summary members expenses).settlements : ℚ) / 200 := by
  have hset : (get_expense_summary members expenses).settlements =
      ((settleDebtors
        (List.insertionSort netLe ((balances members expenses).filter (fun b => b.net < 0)))
        (List.insertionSort netGe ((balances members expenses).filter (fun b => 0 < b.net)))).1).map
        roundSettle := rfl
  rw [hset]
  have hex := settlements_exact_balance members expenses hnd hsum hcr hpt X hX
  have hr := recvBy_map_roundSettle X (settleDebtors
    (List.insertionSort netLe ((balances members expenses).filter (fun b => b.net < 0)))
    (List.insertionSort netGe ((balances members expenses).filter (fun b => 0 < b.net)))).1
  have hs := sentBy_map_roundSettle X (settleDebtors
    (List.insertionSort netLe ((balances members expenses).filter (fun b => b.net < 0)))
    (List.insertionSort netGe ((balances members expenses).filter (fun b => 0 < b.net)))).1
  rw [involvedCount_map_roundSettle]
  have key : recvBy X (((settleDebtors
        (List.insertionSort netLe ((balances members expenses).filter (fun b => b.net < 0)))
        (List.insertionSort netGe ((balances members expenses).filter (fun b => 0 < b.net)))).1).map
          roundSettle) -
      sentBy X (((settleDebtors
        (List.insertionSort netLe ((balances members expenses).filter (fun b => b.net < 0)))
        (List.insertionSort netGe ((balances members expenses).filter (fun b => 0 < b.net)))).1).map
          roundSettle) -
      (balanceFor expenses X).net =
      (recvBy X (((settleDebtors
        (List.insertionSort netLe ((balances members expenses).filter (fun b => b.net < 0)))
        (List.insertionSort netGe ((balances members expenses).filter (fun b => 0 < b.net)))).1).map
          roundSettle) -
        recvBy X (settleDebtors
          (List.insertionSort netLe ((balances members expenses).filter (fun b => b.net < 0)))
          (List.insertionSort netGe ((balances members expenses).filter (fun b => 0 < b.net)))).1) -
      (sentBy X (((settleDebtors
        (List.insertionSort netLe ((balances members expenses).filter (fun b => b.net < 0)))
        (List.insertionSort netGe ((balances members expenses).filter (fun b => 0 < b.net)))).1).map
          roundSettle) -
        sentBy X (settleDebtors
          (List.insertionSort netLe ((balances members expenses).filter (fun b => b.net < 0)))
          (List.insertionSort netGe ((balances members expenses).filter (fun b => 0 < b.net)))).1) := by
    rw [← hex]
    ring
  rw [key]
  have htri : ∀ x y : ℚ, |x - y| ≤ |x| + |y| := by
    intro x y
    calc |x - y| = |x + -y| := by rw [sub_eq_add_neg]
    _ ≤ |x| + |-y| := abs_add x (-y)
    _ = |x| + |y| := by rw [abs_neg]
  have h1 := htri
    (recvBy X (((settleDebtors
      (List.insertionSort netLe ((balances members expenses).filter (fun b => b.net < 0)))
      (List.insertionSort netGe ((balances members expenses).filter (fun b => 0 < b.net)))).1).map
        roundSettle) -
      recvBy X (settleDebtors
        (List.insertionSort netLe ((balances members expenses).filter (fun b => b.net < 0)))
        (List.insertionSort netGe ((balances members expenses).filter (fun b => 0 < b.net)))).1)
    (sentBy X (((settleDebtors
      (List.insertionSort netLe ((balances members expenses).filter (fun b => b.net < 0)))
      (List.insertionSort netGe ((balances members expenses).filter (fun b => 0 < b.net)))).1).map
        roundSettle) -
      sentBy X (settleDebtors
        (List.insertionSort netLe ((balances members expenses).filter (fun b => b.net < 0)))
        (List.insertionSort netGe ((balances members expenses).filter (fun b => 0 < b.net)))).1)
  have hdiv : (((((settleDebtors
      (List.insertionSort netLe ((balances members expenses).filter (fun b => b.net < 0)))
      (List.insertionSort netGe ((balances members expenses).filter (fun b => 0 < b.net)))).1).filter
        (fun t => t.fromUser == X)).length : ℚ) +
      ((((settleDebtors
        (List.insertionSort netLe ((balances members expenses).filter (fun b => b.net < 0)))
        (List.insertionSort netGe ((balances members expenses).filter (fun b => 0 < b.net)))).1).filter
          (fun t => t.toUser == X)).length : ℚ)) / 200 =
      ((((settleDebtors
        (List.insertionSort netLe ((balances members expenses).filter (fun b => b.net < 0)))
        (List.insertionSort netGe ((balances members expenses).filter (fun b => 0 < b.net)))).1).filter
          (fun t => t.fromUser == X)).length : ℚ) / 200 +
      ((((settleDebtors
        (List.insertionSort netLe ((balances members expenses).filter (fun b => b.net < 0)))
        (List.insertionSort netGe ((balances members expenses).filter (fun b => 0 < b.net)))).1).filter
          (fun t => t.toUser == X)).length : ℚ) / 200 := by
    ring
  push_cast
  rw [hdiv]
  linarith

/-- Share sums of Scenario D's expenses. -/
theorem scenarioD_shares : ∀ e ∈ [scenarioD1, scenarioD2], shareSum e = e.amount := by
  intro e he
  rcases List.mem_cons.mp he with h | he2
  · subst h
    norm_num [shareSum, scenarioD1]
  · rcases List.mem_cons.mp he2 with h | he3
    · subst h
      norm_num [shareSum, scenarioD2]
    · cases he3

/-- C1 witness, Scenario D: u1 paid 100 split 50/50 and u2 paid 40 split
20/20; the theorem instantiated at u1 bounds the recorded settlement flow
against u1's net of +30. -/
theorem claim_C1_witness :
    |recvBy "u1" (get_expense_summary ["u1", "u2"] [scenarioD1, scenarioD2]).settlements -
      sentBy "u1" (get_expense_summary ["u1", "u2"] [scenarioD1, scenarioD2]).settlements -
      (balanceFor [scenarioD1, scenarioD2] "u1").net| ≤
      (involvedCount "u1"
        (get_expense_summary ["u1", "u2"] [scenarioD1, scenarioD2]).settlements : ℚ) / 200 :=
  claim_C1 ["u1", "u2"] [scenarioD1, scenarioD2] (by decide) scenarioD_shares
    (by decide) (by decide) "u1" (by decide)

/-- C1 counterexample: the claim as stated — `sum(from = X) - sum(to = X)`
equal to `net(X)` within 2-decimal rounding — fails at a concrete two-member
state: `a` paid 10.00 all owed by `b`, so `net(a) = +10`, the single
settlement is `{from: b, to: a, amount: 10.00}`, and
`sum(from = a) - sum(to = a) = -10`, which misses `net(a) = 10` by 20.00 —
far beyond the half-cent-per-settlement rounding allowance (the sign of the
spec's formula is reversed). -/
theorem claim_C1_cex :
    sentBy "a" (get_expense_summary ["a", "b"] [⟨0, "a", 10, "USD", [⟨"b", 10, false⟩]⟩]).settlements -
      recvBy "a" (get_expense_summary ["a", "b"] [⟨0, "a", 10, "USD", [⟨"b", 10, false⟩]⟩]).settlements = -10 ∧
    (balanceFor [⟨0, "a", 10, "USD", [⟨"b", 10, false⟩]⟩] "a").net = 10 ∧
    ¬(|sentBy "a" (get_expense_summary ["a", "b"]
          [⟨0, "a", 10, "USD", [⟨"b", 10, false⟩]⟩]).settlements -
        recvBy "a" (get_expense_summary ["a", "b"]
          [⟨0, "a", 10, "USD", [⟨"b", 10, false⟩]⟩]).settlements -
        (balanceFor [⟨0, "a", 10, "USD", [⟨"b", 10, false⟩]⟩] "a").net| ≤
        (involvedCount "a" (get_expense_summary ["a", "b"]
          [⟨0, "a", 10, "USD", [⟨"b", 10, false⟩]⟩]).settlements : ℚ) / 200) := by
  rw [summary_ab_eval]
  refine ⟨?_, ?_, ?_⟩
  · norm_num [sentBy, recvBy, List.filter,
      show ("b" == "a") = false from rfl, show ("a" == "a") = true from rfl]
  · norm_num [balanceFor, List.filter,
      show ("a" == "a") = true from rfl, show ("b" == "a") = false from rfl]
  · norm_num [sentBy, recvBy, involvedCount, balanceFor, List.filter,
      show ("b" == "a") = false from rfl, show ("a" == "a") = true from rfl]

end TripSync
